import Mathlib

/-!
Shallow embedding of the CntxtPY knowledge-graph pipeline.

The definitions below are translated from the repository sources:
  * `CntxtPY.py` — the `PythonCodeKnowledgeGraph` assembler and its
    `_add_*_node` / `_process_*` operations (the graph store is a
    `networkx.DiGraph`, whose node/edge upsert semantics are modelled
    explicitly);
  * `regex_components/CodeIdentifierExtractor.py` — parameter parsing and
    function extraction;
  * `regex_components/CommentProcessor.py` — comment/docstring scanning;
  * `compression/compression.py` — codebook construction and the
    surrogate encoding.

Python strings are modelled as `String` / `List Char`, Python `int` as
`Int`, Python `None` as an explicit constructor, and the run environment
(the salted `hash()` of `str` and `datetime.now()`) as an explicit
parameter record, since both vary between runs of the same program.
-/

/-- JSON-like attribute values stored on graph nodes, mirroring the
Python values the assembler puts into node attribute dicts:
strings, ints, `None`, lists and string-keyed dicts. -/
inductive Value where
  | vstr : String → Value
  | vint : Int → Value
  | vnone : Value
  | vlist : List Value → Value
  | vdict : List (String × Value) → Value

/-- Python `str(v)` for the scalar values that ever reach `str` in
`collect_terms`/`abbreviate_value` (both destructure lists and dicts
before calling `str`, so the composite cases are never applied). -/
def pyStr : Value → String
  | .vstr s => s
  | .vint n => toString n
  | .vnone => "None"
  | .vlist _ => ""
  | .vdict _ => ""

/-- The graph store: a `networkx.DiGraph`.  Nodes are kept in insertion
order as `(id, attribute dict)`; edges as `(source, target, relation)`.
`DiGraph` is a simple directed graph: one attribute dict per node id and
one data dict per `(source, target)` pair. -/
structure Graph where
  nodes : List (String × List (String × Value))
  edges : List (String × String × String)

namespace Graph

/-- `networkx.DiGraph.has_node`. -/
def hasNode (g : Graph) (id : String) : Bool :=
  g.nodes.any (fun p => p.1 == id)

/-- Python `dict.update`: existing keys keep their position and take the
new value, new keys are appended in order. -/
def updateAttrs (old new : List (String × Value)) : List (String × Value) :=
  old.map (fun p => match new.find? (fun q => q.1 == p.1) with
            | some q => (p.1, q.2)
            | none => p)
    ++ new.filter (fun q => !(old.any (fun p => p.1 == q.1)))

/-- `networkx.DiGraph.add_node(id, **attrs)`: inserts the node if absent,
otherwise updates its attribute dict in place. -/
def addNodeRaw (g : Graph) (id : String) (attrs : List (String × Value)) : Graph :=
  if g.hasNode id then
    { g with nodes := g.nodes.map (fun p => if p.1 == id then (p.1, updateAttrs p.2 attrs) else p) }
  else
    { g with nodes := g.nodes ++ [(id, attrs)] }

/-- `networkx` creates a missing endpoint of `add_edge` as a node with an
empty attribute dict. -/
def ensureNode (g : Graph) (id : String) : Graph :=
  if g.hasNode id then g else { g with nodes := g.nodes ++ [(id, [])] }

/-- `networkx.DiGraph.add_edge(u, v, relation=rel)`: creates missing
endpoints, then upserts the single data dict of the `(u, v)` pair, so a
repeated insertion overwrites the previous `relation`. -/
def addEdge (g : Graph) (u v rel : String) : Graph :=
  let g' := (g.ensureNode u).ensureNode v
  if g'.edges.any (fun e => e.1 == u && e.2.1 == v) then
    { g' with edges := g'.edges.map (fun e => if e.1 == u && e.2.1 == v then (u, v, rel) else e) }
  else
    { g' with edges := g'.edges ++ [(u, v, rel)] }

/-- The attribute dict of a node, when present. -/
def attrsOf (g : Graph) (id : String) : Option (List (String × Value)) :=
  (g.nodes.find? (fun p => p.1 == id)).map Prod.snd

/-- The relation stored on the `(u, v)` edge, when present. -/
def relOf (g : Graph) (u v : String) : Option String :=
  (g.edges.find? (fun e => e.1 == u && e.2.1 == v)).map (fun e => e.2.2)

/-- Node ids are pairwise distinct (true of any `networkx` graph, since
nodes live in a dict keyed by id). -/
def NodesWF (g : Graph) : Prop := (g.nodes.map Prod.fst).Nodup

/-- Edge `(source, target)` pairs are pairwise distinct (true of any
`networkx.DiGraph`, since edge data lives in nested adjacency dicts). -/
def EdgesWF (g : Graph) : Prop := (g.edges.map (fun e => (e.1, e.2.1))).Nodup

/-- The empty graph `nx.DiGraph()`. -/
def empty : Graph := ⟨[], []⟩

end Graph

/-- `Parameter` dataclass from `CodeIdentifierExtractor.py`. -/
structure Parameter where
  name : String
  type_hint : Option String := none
  default_value : Option String := none
deriving DecidableEq, Repr

/-- `FunctionInfo` dataclass from `CodeIdentifierExtractor.py`. -/
structure FunctionInfo where
  name : String
  parameters : List Parameter
  return_type : Option String
  decorators : List String
  is_async : Bool := false
  is_generator : Bool := false
  docstring : Option String := none
deriving DecidableEq, Repr

/-- `ClassInfo` dataclass from `CodeIdentifierExtractor.py`. -/
structure ClassInfo where
  name : String
  bases : List String
  decorators : List String
  methods : List FunctionInfo
  docstring : Option String := none
deriving DecidableEq, Repr

/-- `CommentType` enum from `CommentProcessor.py` (`auto()` values 1–4). -/
inductive CommentType where
  | inline
  | docstring
  | todo
  | fixme
deriving DecidableEq, Repr

/-- `CommentType.<x>.value`, the int produced by `auto()`. -/
def CommentType.val : CommentType → Int
  | .inline => 1
  | .docstring => 2
  | .todo => 3
  | .fixme => 4

/-- `CommentInfo` from `CommentProcessor.py`. -/
structure CommentInfo where
  content : String
  line_number : Int
  type : CommentType
  associated_element : Option String := none
  tags : List String := []
deriving DecidableEq, Repr

/-- The run-dependent parts of the Python runtime that the pipeline
reads: the per-process salted `hash()` on `str` (`PYTHONHASHSEED`) and
`datetime.now().isoformat()`. -/
structure PyEnv where
  hash : String → Int
  now : String

/-- Python `str(x)` on an `Optional[str]`: `None` prints as `"None"`. -/
def pyStrOpt : Option String → String
  | none => "None"
  | some s => s

/-- `Optional[str]` as a JSON value: `None` or the string itself. -/
def optVal : Option String → Value
  | none => .vnone
  | some s => .vstr s

namespace KG

/-- `PythonCodeKnowledgeGraph._add_import_node`. -/
def addImportNode (g : Graph) (fileNode importName : String) : Graph :=
  let importNode := "Import: " ++ importName
  let g := if g.hasNode importNode then g else
    g.addNodeRaw importNode
      [("type", .vstr "import"), ("name", .vstr importName), ("id", .vstr importNode)]
  g.addEdge fileNode importNode "IMPORTS"

/-- `PythonCodeKnowledgeGraph._add_class_node`. -/
def addClassNode (g : Graph) (fileNode className : String) : Graph :=
  let classNode := "Class: " ++ className
  let g := if g.hasNode classNode then g else
    g.addNodeRaw classNode
      [("type", .vstr "class"), ("name", .vstr className), ("id", .vstr classNode)]
  g.addEdge fileNode classNode "DEFINES"

/-- The serialized form of one parameter inside a method/function node
(`{'name': str(..), 'type': str(..), 'default': default_val}`; a string
or `None` default is JSON-serializable, so it is stored as is). -/
def paramValue (p : Parameter) : Value :=
  .vdict [("name", .vstr p.name), ("type", .vstr (pyStrOpt p.type_hint)),
          ("default", optVal p.default_value)]

/-- `PythonCodeKnowledgeGraph._add_method_node`.  Returns the updated
graph together with the `logging.warning` messages the call emits; the
operation is a total function (it never raises). -/
def addMethodNode (g : Graph) (className : String) (mi : FunctionInfo) :
    Graph × List String :=
  let methodNode := "Method: " ++ mi.name
  let g := if g.hasNode methodNode then g else
    g.addNodeRaw methodNode
      [("type", .vstr "method"), ("name", .vstr mi.name), ("id", .vstr methodNode),
       ("return_type", .vstr (pyStrOpt mi.return_type)),
       ("parameters", .vlist (mi.parameters.map paramValue)),
       ("decorators", .vlist (mi.decorators.map .vstr))]
  let classNode := "Class: " ++ className
  if g.hasNode classNode then
    (g.addEdge classNode methodNode "HAS_METHOD", [])
  else
    (g, ["Class node " ++ classNode ++ " does not exist; cannot add method " ++ mi.name])

/-- `PythonCodeKnowledgeGraph._add_function_node`. -/
def addFunctionNode (g : Graph) (fileNode : String) (fi : FunctionInfo) : Graph :=
  let functionNode := "Function: " ++ fi.name
  let g := if g.hasNode functionNode then g else
    g.addNodeRaw functionNode
      [("type", .vstr "function"), ("name", .vstr fi.name), ("id", .vstr functionNode),
       ("return_type", .vstr (pyStrOpt fi.return_type)),
       ("parameters", .vlist (fi.parameters.map paramValue)),
       ("decorators", .vlist (fi.decorators.map .vstr))]
  g.addEdge fileNode functionNode "DEFINES"

/-- `PythonCodeKnowledgeGraph._add_annotation_node` (the extractor hands
it decorator strings, so `annotation_str` is the input itself). -/
def addAnnotationNode (g : Graph) (fileNode annotation : String) : Graph :=
  let annotationNode := "Decorator: " ++ annotation
  let g := if g.hasNode annotationNode then g else
    g.addNodeRaw annotationNode
      [("type", .vstr "decorator"), ("name", .vstr annotation), ("id", .vstr annotationNode)]
  g.addEdge fileNode annotationNode "DECORATED_WITH"

/-- `PythonCodeKnowledgeGraph._add_comment_node`: the node id is
`f"Comment: {line_number}_{hash(content)}"`, where `hash` is Python's
per-process salted string hash. -/
def addCommentNode (env : PyEnv) (g : Graph) (fileNode : String) (c : CommentInfo) : Graph :=
  let commentNode := "Comment: " ++ toString c.line_number ++ "_" ++ toString (env.hash c.content)
  let g := if g.hasNode commentNode then g else
    g.addNodeRaw commentNode
      [("type", .vstr "comment"), ("comment_type", .vint c.type.val),
       ("content", .vstr c.content), ("line_number", .vint c.line_number),
       ("associated_element", optVal c.associated_element),
       ("tags", .vlist (c.tags.map .vstr)), ("id", .vstr commentNode)]
  g.addEdge fileNode commentNode "HAS_COMMENT"

/-- `PythonCodeKnowledgeGraph._add_log_statement_node` (dict input case):
the node id is `f"Log: {hash(log_message)}"`. -/
def addLogStatementNode (env : PyEnv) (g : Graph) (fileNode message level : String) : Graph :=
  let logNode := "Log: " ++ toString (env.hash message)
  let g := if g.hasNode logNode then g else
    g.addNodeRaw logNode
      [("type", .vstr "log_statement"), ("level", .vstr level),
       ("message", .vstr message), ("id", .vstr logNode)]
  g.addEdge fileNode logNode "USES"

/-- `PythonCodeKnowledgeGraph._process_config_file`, given the relative
path and the parser's result (`config_info.config_type.value`, or `none`
when the parser returned nothing).  The `File:` node for the path is
never created here — only referenced as the edge source. -/
def processConfigFile (g : Graph) (relativePath : String) (configType : Option String) : Graph :=
  match configType with
  | none => g
  | some ct =>
    let configNode := "Config: " ++ relativePath
    let g := if g.hasNode configNode then g else
      g.addNodeRaw configNode
        [("type", .vstr "config"), ("path", .vstr relativePath),
         ("config_type", .vstr ct), ("id", .vstr configNode)]
    let fileNode := "File: " ++ relativePath
    g.addEdge fileNode configNode "CONFIGURED_BY"

/-- `PythonCodeKnowledgeGraph._process_localization_file`, given the
relative path and the extracted locale.  As with config files, the
`File:` node is only named as the edge source, never created. -/
def processLocalizationFile (g : Graph) (relativePath basename locale : String) : Graph :=
  let localizationNode := "i18n: " ++ basename
  let g := if g.hasNode localizationNode then g else
    g.addNodeRaw localizationNode
      [("type", .vstr "localization"), ("path", .vstr relativePath),
       ("locale", .vstr locale), ("id", .vstr localizationNode)]
  let fileNode := "File: " ++ relativePath
  g.addEdge fileNode localizationNode "CONTAINS"

/-- The `File:` node added at the top of `_process_python_file`. -/
def addPyFileNode (g : Graph) (relativePath : String) : Graph :=
  g.addNodeRaw ("File: " ++ relativePath)
    [("type", .vstr "file"), ("path", .vstr relativePath),
     ("encoding", .vstr "UTF-8"), ("fileType", .vstr "SOURCE_CODE")]

/-- One iteration of the method loop in `_process_file_contents`: add
the method node/edge, then the method's decorator annotations. -/
def processMethod (g : Graph) (fileNode className : String) (m : FunctionInfo) : Graph :=
  let g := (addMethodNode g className m).1
  m.decorators.foldl (fun g a => addAnnotationNode g fileNode a) g

/-- The per-class portion of `_process_file_contents`: add the class
node, its decorator annotations, then each method (and the method's
decorator annotations). -/
def processClass (g : Graph) (fileNode : String) (ci : ClassInfo) : Graph :=
  let g := addClassNode g fileNode ci.name
  let g := ci.decorators.foldl (fun g a => addAnnotationNode g fileNode a) g
  ci.methods.foldl (fun g m => processMethod g fileNode ci.name m) g

end KG

namespace Graph

theorem hasNode_iff_mem {g : Graph} {id : String} :
    g.hasNode id = true ↔ id ∈ g.nodes.map Prod.fst := by
  simp [hasNode, List.any_eq_true, List.mem_map]

theorem ensureNode_of_hasNode {g : Graph} {id : String} (h : g.hasNode id = true) :
    g.ensureNode id = g := by
  simp [ensureNode, h]

theorem ensureNode_nodes_of_not_hasNode {g : Graph} {id : String}
    (h : g.hasNode id = false) :
    (g.ensureNode id).nodes = g.nodes ++ [(id, [])] := by
  simp [ensureNode, h]

theorem ensureNode_edges (g : Graph) (id : String) :
    (g.ensureNode id).edges = g.edges := by
  unfold ensureNode; split <;> rfl

theorem addEdge_nodes_of_hasNode {g : Graph} {u v : String} (r : String)
    (hu : g.hasNode u = true) (hv : g.hasNode v = true) :
    (g.addEdge u v r).nodes = g.nodes := by
  unfold addEdge
  rw [ensureNode_of_hasNode hu, ensureNode_of_hasNode hv]
  dsimp only
  split <;> rfl

theorem addNodeRaw_nodes_of_not_hasNode {g : Graph} {id : String}
    (h : g.hasNode id = false) (attrs : List (String × Value)) :
    (g.addNodeRaw id attrs).nodes = g.nodes ++ [(id, attrs)] := by
  simp [addNodeRaw, h]

end Graph

namespace Graph

/-- Number of nodes carrying a given id. -/
def nodeCount (g : Graph) (id : String) : Nat :=
  (g.nodes.filter (fun p => p.1 == id)).length

/-- Number of edges stored for a given `(source, target)` pair. -/
def pairCount (g : Graph) (u v : String) : Nat :=
  (g.edges.filter (fun e => e.1 == u && e.2.1 == v)).length

theorem nodeCount_eq_count (g : Graph) (id : String) :
    g.nodeCount id = (g.nodes.map Prod.fst).count id := by
  rw [nodeCount, List.count_eq_countP, ← List.countP_eq_length_filter, List.countP_map]
  rfl

theorem nodeCount_eq_one {g : Graph} {id : String} (hwf : g.NodesWF)
    (h : g.hasNode id = true) : g.nodeCount id = 1 := by
  rw [nodeCount_eq_count]
  exact List.count_eq_one_of_mem hwf (hasNode_iff_mem.mp h)

end Graph

/-- C4: for every node identity, re-inserting a node whose id already
exists is a no-op on the node set (`_add_class_node` guards the insert
with `has_node`, so the existing attribute dict is neither merged nor
overwritten), exactly one node with that id remains, and the operation
is a total function, so it never errors.  The file node is assumed
present, as `_process_python_file` creates it before any class fact. -/
theorem addClassNode_idempotent (g : Graph) (fileNode className : String)
    (hc : g.hasNode ("Class: " ++ className) = true)
    (hf : g.hasNode fileNode = true)
    (hwf : g.NodesWF) :
    (KG.addClassNode g fileNode className).nodes = g.nodes ∧
      (KG.addClassNode g fileNode className).nodeCount ("Class: " ++ className) = 1 := by
  have hnodes : (KG.addClassNode g fileNode className).nodes = g.nodes := by
    unfold KG.addClassNode
    dsimp only
    rw [if_pos hc]
    exact Graph.addEdge_nodes_of_hasNode _ hf hc
  refine ⟨hnodes, ?_⟩
  rw [Graph.nodeCount, hnodes, ← Graph.nodeCount]
  exact Graph.nodeCount_eq_one hwf hc

/-- Witness for `addClassNode_idempotent`: a concrete graph already
holding the class node and the file node. -/
theorem addClassNode_idempotent_witness :
    (KG.addClassNode ⟨[("File: a.py", []), ("Class: Foo", [])], []⟩ "File: a.py" "Foo").nodes
        = [("File: a.py", []), ("Class: Foo", [])] ∧
      (KG.addClassNode ⟨[("File: a.py", []), ("Class: Foo", [])], []⟩
          "File: a.py" "Foo").nodeCount "Class: Foo" = 1 := by
  have h := addClassNode_idempotent ⟨[("File: a.py", []), ("Class: Foo", [])], []⟩
    "File: a.py" "Foo" (by decide) (by decide) (by unfold Graph.NodesWF; decide)
  exact ⟨h.1, h.2⟩

namespace Graph

theorem find?_replace {α : Type} (p : α → Bool) (x : α) (hp : p x = true)
    (l : List α) (h : l.any p = true) :
    (l.map (fun e => if p e then x else e)).find? p = some x := by
  induction l with
  | nil => simp at h
  | cons a t ih =>
    by_cases ha : p a = true
    · simp [List.find?, ha, hp]
    · have ha' : p a = false := by simpa using ha
      have h' : t.any p = true := by simpa [List.any_cons, ha'] using h
      simpa [List.find?, ha'] using ih h'

theorem find?_append_of_none {α : Type} (p : α → Bool) (l₁ l₂ : List α)
    (h : l₁.any p = false) :
    (l₁ ++ l₂).find? p = l₂.find? p := by
  induction l₁ with
  | nil => rfl
  | cons a t ih =>
    rw [List.any_cons, Bool.or_eq_false_iff] at h
    obtain ⟨ha, ht⟩ := h
    simpa [List.find?, ha] using ih ht

/-- An `add_edge` always leaves exactly the requested relation on the
`(u, v)` pair: the previous relation, if any, is overwritten. -/
theorem relOf_addEdge (g : Graph) (u v rel : String) :
    (g.addEdge u v rel).relOf u v = some rel := by
  unfold addEdge relOf
  dsimp only
  rw [ensureNode_edges, ensureNode_edges]
  split
  · next h =>
    rw [find?_replace (fun e => e.1 == u && e.2.1 == v) (u, v, rel) (by simp) _ h]
    rfl
  · next h =>
    have h' : g.edges.any (fun e => e.1 == u && e.2.1 == v) = false :=
      Bool.eq_false_iff.mpr h
    rw [find?_append_of_none _ _ _ h']
    rw [List.find?_cons_of_pos _ (by simp)]
    rfl

theorem countP_replace {α : Type} (p : α → Bool) (x : α) (hp : p x = true) (l : List α) :
    (l.map (fun e => if p e then x else e)).countP p = l.countP p := by
  induction l with
  | nil => rfl
  | cons a t ih =>
    by_cases ha : p a = true
    · simp [List.countP_cons, ha, hp, ih]
    · have ha' : p a = false := by simpa using ha
      simp [List.countP_cons, ha', ih]

theorem countP_eq_one_of_nodup_map {α β : Type} [BEq β] [LawfulBEq β]
    (f : α → β) (c : β) :
    ∀ l : List α, (l.map f).Nodup → (∃ e ∈ l, f e = c) →
      l.countP (fun e => f e == c) = 1 := by
  intro l
  induction l with
  | nil => intro _ hm; simp at hm
  | cons a t ih =>
    intro hn hm
    rw [List.map_cons, List.nodup_cons] at hn
    obtain ⟨hna, hnt⟩ := hn
    by_cases hac : f a = c
    · subst hac
      have hz : t.countP (fun e => f e == f a) = 0 := by
        rw [List.countP_eq_zero]
        intro e he
        have hne : f e ≠ f a := fun hc => hna (hc ▸ List.mem_map_of_mem f he)
        simpa using hne
      simp [List.countP_cons, hz]
    · have hm' : ∃ e ∈ t, f e = c := by
        obtain ⟨e, he, hec⟩ := hm
        cases List.mem_cons.mp he with
        | inl h => exact absurd (h ▸ hec) hac
        | inr h => exact ⟨e, h, hec⟩
      have hrec := ih hnt hm'
      simp [List.countP_cons, hac, hrec]

/-- After an `add_edge`, the `(u, v)` pair carries exactly one edge,
no matter how many insertions were made for it before. -/
theorem pairCount_addEdge {g : Graph} (u v rel : String) (hwf : g.EdgesWF) :
    (g.addEdge u v rel).pairCount u v = 1 := by
  unfold addEdge pairCount
  dsimp only
  rw [ensureNode_edges, ensureNode_edges]
  split
  · next h =>
    rw [← List.countP_eq_length_filter,
      countP_replace (fun e => e.1 == u && e.2.1 == v) (u, v, rel) (by simp)]
    have hm : ∃ e ∈ g.edges, (fun e : String × String × String => (e.1, e.2.1)) e = (u, v) := by
      simp only [List.any_eq_true, Bool.and_eq_true, beq_iff_eq] at h
      obtain ⟨e, he, h1, h2⟩ := h
      exact ⟨e, he, by simp [h1, h2]⟩
    exact countP_eq_one_of_nodup_map _ _ _ hwf hm
  · next h =>
    have h' : g.edges.any (fun e => e.1 == u && e.2.1 == v) = false :=
      Bool.eq_false_iff.mpr h
    rw [← List.countP_eq_length_filter, List.countP_append]
    have hz : g.edges.countP (fun e => e.1 == u && e.2.1 == v) = 0 := by
      rw [List.countP_eq_zero]
      intro e he
      exact List.any_eq_false.mp h' e he
    simp [hz, List.countP_cons]

end Graph

namespace Graph

theorem eq_of_fields {g g' : Graph} (hn : g.nodes = g'.nodes) (he : g.edges = g'.edges) :
    g = g' := by
  cases g; cases g'; simp_all

theorem hasNode_ensureNode (g : Graph) (i j : String) :
    (g.ensureNode i).hasNode j = (g.hasNode j || i == j) := by
  unfold ensureNode
  split
  · next h =>
    by_cases hji : i = j
    · subst hji; simp [h]
    · simp [beq_iff_eq, hji]
  · simp [hasNode, List.any_append, List.any_cons]

theorem hasNode_addEdge (g : Graph) (u v rel j : String) :
    (g.addEdge u v rel).hasNode j = (g.hasNode j || u == j || v == j) := by
  unfold addEdge
  dsimp only
  have hbase : (((g.ensureNode u).ensureNode v)).hasNode j
      = (g.hasNode j || u == j || v == j) := by
    rw [hasNode_ensureNode, hasNode_ensureNode]
  split
  · next => simpa [hasNode] using hbase
  · next => simpa [hasNode] using hbase

theorem mem_addEdge_self (g : Graph) (u v rel : String) :
    (u, v, rel) ∈ (g.addEdge u v rel).edges := by
  unfold addEdge
  dsimp only
  rw [ensureNode_edges, ensureNode_edges]
  split
  · next h =>
    simp only [List.any_eq_true] at h
    obtain ⟨e, he, hpe⟩ := h
    exact List.mem_map.mpr ⟨e, he, by simp [hpe]⟩
  · next => simp

theorem pred_mem_addEdge {g : Graph} {u v rel : String} :
    ∀ e : String × String × String, e ∈ (g.addEdge u v rel).edges →
      (e.1 == u && e.2.1 == v) = true → e = (u, v, rel) := by
  unfold addEdge
  dsimp only
  rw [ensureNode_edges, ensureNode_edges]
  split
  · next =>
    intro e he hpe
    obtain ⟨e₀, he₀, hfe⟩ := List.mem_map.mp he
    by_cases hp₀ : (e₀.1 == u && e₀.2.1 == v) = true
    · rw [if_pos hp₀] at hfe; exact hfe.symm
    · rw [if_neg hp₀] at hfe; subst hfe; exact absurd hpe hp₀
  · next h =>
    have h' : g.edges.any (fun e => e.1 == u && e.2.1 == v) = false :=
      Bool.eq_false_iff.mpr h
    intro e he hpe
    rcases List.mem_append.mp he with hin | hin
    · exact absurd hpe (List.any_eq_false.mp h' e hin)
    · simpa using hin

/-- Re-inserting the `(u, v)` edge with the same relation is a no-op on
the whole graph. -/
theorem addEdge_addEdge_same (g : Graph) (u v rel : String) :
    (g.addEdge u v rel).addEdge u v rel = g.addEdge u v rel := by
  set g₁ := g.addEdge u v rel with hg₁
  have hu : g₁.hasNode u = true := by
    rw [hg₁, hasNode_addEdge]; simp
  have hv : g₁.hasNode v = true := by
    rw [hg₁, hasNode_addEdge]; simp
  have hany : g₁.edges.any (fun e => e.1 == u && e.2.1 == v) = true :=
    List.any_eq_true.mpr ⟨(u, v, rel), mem_addEdge_self g u v rel, by simp⟩
  apply eq_of_fields
  · exact addEdge_nodes_of_hasNode rel hu hv
  · show (g₁.addEdge u v rel).edges = g₁.edges
    unfold addEdge
    dsimp only
    rw [ensureNode_of_hasNode hu, ensureNode_of_hasNode hv, if_pos hany]
    show g₁.edges.map _ = g₁.edges
    calc g₁.edges.map (fun e => if (e.1 == u && e.2.1 == v) = true then (u, v, rel) else e)
        = g₁.edges.map id := by
          apply List.map_congr_left
          intro e he
          by_cases hp : (e.1 == u && e.2.1 == v) = true
          · rw [if_pos hp, id, pred_mem_addEdge e he hp]
          · rw [if_neg hp, id]
      _ = g₁.edges := List.map_id _

/-- `add_edge` keeps the `(source, target)` pairs duplicate-free. -/
theorem edgesWF_addEdge {g : Graph} (u v rel : String) (hwf : g.EdgesWF) :
    (g.addEdge u v rel).EdgesWF := by
  unfold addEdge EdgesWF
  dsimp only
  rw [ensureNode_edges, ensureNode_edges]
  split
  · next =>
    dsimp only
    rw [List.map_map]
    have : g.edges.map ((fun e : String × String × String => (e.1, e.2.1)) ∘
        (fun e => if (e.1 == u && e.2.1 == v) = true then (u, v, rel) else e))
        = g.edges.map (fun e => (e.1, e.2.1)) := by
      apply List.map_congr_left
      intro e _
      by_cases hp : (e.1 == u && e.2.1 == v) = true
      · simp only [Function.comp, if_pos hp]
        simp only [Bool.and_eq_true, beq_iff_eq] at hp
        simp [hp.1, hp.2]
      · simp only [Function.comp, if_neg hp]
    rw [this]
    exact hwf
  · next h =>
    have h' : g.edges.any (fun e => e.1 == u && e.2.1 == v) = false :=
      Bool.eq_false_iff.mpr h
    dsimp only
    rw [List.map_append]
    rw [List.nodup_append]
    refine ⟨hwf, List.nodup_singleton _, ?_⟩
    intro x hx hx'
    simp only [List.map_cons, List.map_nil, List.mem_singleton] at hx'
    subst hx'
    obtain ⟨e, he, hpe⟩ := List.mem_map.mp hx
    have := List.any_eq_false.mp h' e he
    apply this
    have h1 : e.1 = u := congrArg Prod.fst hpe
    have h2 : e.2.1 = v := congrArg Prod.snd hpe
    simp [h1, h2]

end Graph

/-- C5: the graph is a simple directed graph — after inserting the
`(u, v)` edge it carries exactly one edge for that pair and the
pair-uniqueness invariant is preserved (so at most one edge per pair is
retained under any number of insertions); re-inserting the same
relation is a no-op; re-inserting a different relation overwrites the
prior relation (last relation wins). -/
theorem addEdge_simple_graph (g : Graph) (u v rel rel' : String) (hwf : g.EdgesWF) :
    (g.addEdge u v rel).pairCount u v = 1 ∧
      (g.addEdge u v rel).EdgesWF ∧
      (g.addEdge u v rel).addEdge u v rel = g.addEdge u v rel ∧
      ((g.addEdge u v rel).addEdge u v rel').relOf u v = some rel' := by
  exact ⟨Graph.pairCount_addEdge u v rel hwf, Graph.edgesWF_addEdge u v rel hwf,
    Graph.addEdge_addEdge_same g u v rel, Graph.relOf_addEdge _ u v rel'⟩

/-- Witness for `addEdge_simple_graph`: two imports of the same file
edge pair on a concrete graph. -/
theorem addEdge_simple_graph_witness :
    ((Graph.empty.addEdge "File: a.py" "Import: os" "IMPORTS").pairCount
        "File: a.py" "Import: os" = 1) ∧
      ((Graph.empty.addEdge "File: a.py" "Import: os" "IMPORTS").addEdge
          "File: a.py" "Import: os" "USES").relOf "File: a.py" "Import: os" = some "USES" := by
  have h := addEdge_simple_graph Graph.empty "File: a.py" "Import: os" "IMPORTS" "USES"
    (by unfold Graph.EdgesWF; decide)
  exact ⟨h.1, h.2.2.2⟩

namespace Graph

theorem find?_nodes_eq_none {g : Graph} {u : String} (hu : g.hasNode u = false) :
    g.nodes.find? (fun p => p.1 == u) = none :=
  List.find?_eq_none.mpr (fun a ha => by
    simpa using List.any_eq_false.mp hu a ha)

theorem attrsOf_addEdge (g : Graph) (u v rel w : String) :
    (g.addEdge u v rel).attrsOf w = ((g.ensureNode u).ensureNode v).attrsOf w := by
  unfold addEdge attrsOf
  dsimp only
  split <;> rfl

theorem attrsOf_ensure_ensure_src {g : Graph} {u : String} (v : String)
    (hu : g.hasNode u = false) :
    ((g.ensureNode u).ensureNode v).attrsOf u = some [] := by
  have h1 : (g.ensureNode u).nodes = g.nodes ++ [(u, [])] :=
    ensureNode_nodes_of_not_hasNode hu
  unfold attrsOf
  by_cases hv : (g.ensureNode u).hasNode v = true
  · rw [ensureNode_of_hasNode hv, h1]
    simp [find?_nodes_eq_none hu]
  · have hv' : (g.ensureNode u).hasNode v = false := Bool.eq_false_iff.mpr hv
    rw [ensureNode_nodes_of_not_hasNode hv', h1]
    simp [find?_nodes_eq_none hu]

theorem any_fst_map_update (l : List (String × List (String × Value)))
    (id j : String) (attrs : List (String × Value)) :
    ((l.map (fun p => if p.1 == id then (p.1, updateAttrs p.2 attrs) else p)).any
        (fun p => p.1 == j))
      = l.any (fun p => p.1 == j) := by
  induction l with
  | nil => rfl
  | cons a t ih =>
    simp only [List.map_cons, List.any_cons, ih]
    by_cases hp : (a.1 == id) = true
    · rw [if_pos hp]
    · rw [if_neg hp]

theorem hasNode_addNodeRaw (g : Graph) (id j : String) (attrs : List (String × Value)) :
    (g.addNodeRaw id attrs).hasNode j = (g.hasNode j || id == j) := by
  unfold addNodeRaw hasNode
  split
  · next h =>
    rw [any_fst_map_update]
    by_cases hij : id = j
    · subst hij
      simp [h]
    · simp [beq_iff_eq, hij]
  · simp [List.any_append, List.any_cons]

end Graph

/-- Two strings built by appending to prefixes that differ in their
first character are distinct. -/
theorem append_ne_of_head_ne {p q : String} (r s : String) (c d : Char)
    (hp : p.data.head? = some c) (hq : q.data.head? = some d) (hcd : c ≠ d) :
    p ++ r ≠ q ++ s := by
  intro h
  have hd := congrArg (fun t : String => t.data.head?) h
  simp only [String.data_append, List.head?_append, hp, hq, Option.or_some] at hd
  exact hcd (Option.some.inj hd)

/-- C10: inserting an edge whose source id does not name an existing
node silently creates that node with an empty attribute dict; in
particular `_process_config_file` and `_process_localization_file` add
an edge out of `File: <relative path>` without ever creating that File
node, so the saved graph contains a node carrying no attributes at all
(hence no `type` attribute), and the requested edge is present. -/
theorem edge_insertion_creates_bare_file_node
    (g g₂ : Graph) (rel ct rel₂ base loc : String)
    (hf : g.hasNode ("File: " ++ rel) = false)
    (hcfg : g.hasNode ("Config: " ++ rel) = false)
    (hf₂ : g₂.hasNode ("File: " ++ rel₂) = false)
    (hloc : g₂.hasNode ("i18n: " ++ base) = false) :
    ((KG.processConfigFile g rel (some ct)).attrsOf ("File: " ++ rel) = some [] ∧
      (KG.processConfigFile g rel (some ct)).relOf ("File: " ++ rel) ("Config: " ++ rel)
        = some "CONFIGURED_BY") ∧
    ((KG.processLocalizationFile g₂ rel₂ base loc).attrsOf ("File: " ++ rel₂) = some [] ∧
      (KG.processLocalizationFile g₂ rel₂ base loc).relOf ("File: " ++ rel₂) ("i18n: " ++ base)
        = some "CONTAINS") := by
  refine ⟨⟨?_, ?_⟩, ⟨?_, ?_⟩⟩
  · unfold KG.processConfigFile
    dsimp only
    rw [if_neg (by simp [hcfg])]
    rw [Graph.attrsOf_addEdge]
    apply Graph.attrsOf_ensure_ensure_src
    rw [Graph.hasNode_addNodeRaw, hf]
    simp only [Bool.false_or, beq_eq_false_iff_ne, ne_eq]
    exact append_ne_of_head_ne rel rel 'C' 'F' (by decide) (by decide) (by decide)
  · unfold KG.processConfigFile
    dsimp only
    rw [if_neg (by simp [hcfg])]
    exact Graph.relOf_addEdge _ _ _ _
  · unfold KG.processLocalizationFile
    dsimp only
    rw [if_neg (by simp [hloc])]
    rw [Graph.attrsOf_addEdge]
    apply Graph.attrsOf_ensure_ensure_src
    rw [Graph.hasNode_addNodeRaw, hf₂]
    simp only [Bool.false_or, beq_eq_false_iff_ne, ne_eq]
    exact append_ne_of_head_ne base rel₂ 'i' 'F' (by decide) (by decide) (by decide)
  · unfold KG.processLocalizationFile
    dsimp only
    rw [if_neg (by simp [hloc])]
    exact Graph.relOf_addEdge _ _ _ _

/-- Witness for `edge_insertion_creates_bare_file_node`: a fresh config
file `settings.ini` and a fresh localization file `de.po` on empty
graphs. -/
theorem edge_insertion_creates_bare_file_node_witness :
    ((KG.processConfigFile Graph.empty "settings.ini" (some "ini")).attrsOf
        ("File: " ++ "settings.ini") = some []) ∧
      ((KG.processLocalizationFile Graph.empty "de.po" "de.po" "de").relOf
        ("File: " ++ "de.po") ("i18n: " ++ "de.po") = some "CONTAINS") := by
  have h := edge_insertion_creates_bare_file_node Graph.empty Graph.empty
    "settings.ini" "ini" "de.po" "de.po" "de" (by decide) (by decide) (by decide) (by decide)
  exact ⟨h.1.1, h.2.2⟩

namespace Graph

theorem addNodeRaw_edges (g : Graph) (id : String) (attrs : List (String × Value)) :
    (g.addNodeRaw id attrs).edges = g.edges := by
  unfold addNodeRaw; split <;> rfl

end Graph

/-- C8: when a method fact is added and the `Class: <name>` node for its
enclosing class does not exist, the `HAS_METHOD` edge is omitted (the
edge set is unchanged) and a warning naming the class and the method is
logged; the operation is a total function, so no exception is raised
and the caller's loop continues with the rest of the file. -/
theorem addMethodNode_missing_class (g : Graph) (className : String) (mi : FunctionInfo)
    (h : g.hasNode ("Class: " ++ className) = false) :
    (KG.addMethodNode g className mi).1.edges = g.edges ∧
      (KG.addMethodNode g className mi).2 =
        ["Class node " ++ ("Class: " ++ className) ++ " does not exist; cannot add method "
          ++ mi.name] := by
  unfold KG.addMethodNode
  dsimp only
  by_cases hm : g.hasNode ("Method: " ++ mi.name) = true
  · rw [if_pos hm, if_neg (by simp [h])]
    exact ⟨rfl, rfl⟩
  · have hm' : ¬ g.hasNode ("Method: " ++ mi.name) = true := hm
    rw [if_neg hm']
    have hcls : (g.addNodeRaw ("Method: " ++ mi.name)
        [("type", .vstr "method"), ("name", .vstr mi.name),
         ("id", .vstr ("Method: " ++ mi.name)),
         ("return_type", .vstr (pyStrOpt mi.return_type)),
         ("parameters", .vlist (mi.parameters.map KG.paramValue)),
         ("decorators", .vlist (mi.decorators.map .vstr))]).hasNode ("Class: " ++ className)
        = false := by
      rw [Graph.hasNode_addNodeRaw, h]
      simp only [Bool.false_or, beq_eq_false_iff_ne, ne_eq]
      exact append_ne_of_head_ne mi.name className 'M' 'C' (by decide) (by decide) (by decide)
    rw [if_neg (by simp [hcls])]
    exact ⟨Graph.addNodeRaw_edges _ _ _, rfl⟩

/-- Witness for `addMethodNode_missing_class`: adding method `bar` of
the absent class `Foo` to the empty graph. -/
theorem addMethodNode_missing_class_witness :
    (KG.addMethodNode Graph.empty "Foo" ⟨"bar", [], none, [], false, false, none⟩).1.edges = [] ∧
      (KG.addMethodNode Graph.empty "Foo" ⟨"bar", [], none, [], false, false, none⟩).2 =
        ["Class node Class: Foo does not exist; cannot add method bar"] := by
  have h := addMethodNode_missing_class Graph.empty "Foo"
    ⟨"bar", [], none, [], false, false, none⟩ (by decide)
  exact ⟨h.1, h.2⟩

theorem string_append_left_cancel {p a b : String} (h : p ++ a = p ++ b) : a = b := by
  apply String.ext
  have hd := congrArg String.data h
  rw [String.data_append, String.data_append] at hd
  exact (List.append_right_inj _).mp hd

namespace Graph

theorem guarded_hasNode_mono {g : Graph} {id j : String} {attrs : List (String × Value)}
    (h : g.hasNode j = true) :
    ((if g.hasNode id then g else g.addNodeRaw id attrs) : Graph).hasNode j = true := by
  split
  · exact h
  · rw [hasNode_addNodeRaw, h]; rfl

theorem guarded_hasNode_self (g : Graph) (id : String) (attrs : List (String × Value)) :
    ((if g.hasNode id then g else g.addNodeRaw id attrs) : Graph).hasNode id = true := by
  split
  · next h => exact h
  · rw [hasNode_addNodeRaw]; simp

theorem guarded_edges (g : Graph) (id : String) (attrs : List (String × Value)) :
    ((if g.hasNode id then g else g.addNodeRaw id attrs) : Graph).edges = g.edges := by
  split
  · rfl
  · exact addNodeRaw_edges _ _ _

theorem nodesWF_addNodeRaw {g : Graph} (id : String) (attrs : List (String × Value))
    (h : g.NodesWF) : (g.addNodeRaw id attrs).NodesWF := by
  unfold addNodeRaw
  split
  · next =>
    have heq : (g.nodes.map
          (fun p => if p.1 == id then (p.1, updateAttrs p.2 attrs) else p)).map Prod.fst
        = g.nodes.map Prod.fst := by
      rw [List.map_map]
      apply List.map_congr_left
      intro p _
      by_cases hp : (p.1 == id) = true
      · simp [Function.comp, hp]
      · simp [Function.comp, hp]
    show ((g.nodes.map _).map Prod.fst).Nodup
    rw [heq]
    exact h
  · next hno =>
    show ((g.nodes ++ [(id, attrs)]).map Prod.fst).Nodup
    rw [List.map_append, List.nodup_append]
    refine ⟨h, List.nodup_singleton _, ?_⟩
    intro x hx hx'
    simp only [List.map_cons, List.map_nil, List.mem_singleton] at hx'
    subst hx'
    exact hno (hasNode_iff_mem.mpr hx)

theorem guarded_nodesWF {g : Graph} (id : String) (attrs : List (String × Value))
    (h : g.NodesWF) :
    ((if g.hasNode id then g else g.addNodeRaw id attrs) : Graph).NodesWF := by
  split
  · exact h
  · exact nodesWF_addNodeRaw id attrs h

theorem nodesWF_ensureNode {g : Graph} (id : String) (h : g.NodesWF) :
    (g.ensureNode id).NodesWF := by
  unfold ensureNode
  split
  · exact h
  · next hno =>
    show ((g.nodes ++ [(id, [])]).map Prod.fst).Nodup
    rw [List.map_append, List.nodup_append]
    refine ⟨h, List.nodup_singleton _, ?_⟩
    intro x hx hx'
    simp only [List.map_cons, List.map_nil, List.mem_singleton] at hx'
    subst hx'
    exact hno (hasNode_iff_mem.mpr hx)

theorem nodesWF_addEdge {g : Graph} (u v rel : String) (h : g.NodesWF) :
    (g.addEdge u v rel).NodesWF := by
  unfold addEdge
  dsimp only
  have h2 := nodesWF_ensureNode v (nodesWF_ensureNode u h)
  split
  · exact h2
  · exact h2

theorem hasNode_mono_addEdge {g : Graph} (u v rel : String) {j : String}
    (h : g.hasNode j = true) : (g.addEdge u v rel).hasNode j = true := by
  rw [hasNode_addEdge, h]; rfl

/-- Full membership characterization of `add_edge`: the new edge is
present, an old edge on a different `(source, target)` pair survives
unchanged, and an old edge on the same pair is replaced. -/
theorem mem_addEdge_iff {g : Graph} {u v rel : String} (e : String × String × String) :
    e ∈ (g.addEdge u v rel).edges ↔
      (e = (u, v, rel) ∨ (e ∈ g.edges ∧ ¬(e.1 = u ∧ e.2.1 = v))) := by
  unfold addEdge
  dsimp only
  rw [ensureNode_edges, ensureNode_edges]
  split
  · next h =>
    constructor
    · intro he
      obtain ⟨e₀, he₀, hfe⟩ := List.mem_map.mp he
      by_cases hp : (e₀.1 == u && e₀.2.1 == v) = true
      · rw [if_pos hp] at hfe
        exact Or.inl hfe.symm
      · rw [if_neg hp] at hfe
        subst hfe
        refine Or.inr ⟨he₀, ?_⟩
        rintro ⟨h1, h2⟩
        exact hp (by simp [h1, h2])
    · rintro (he | ⟨he, hne⟩)
      · subst he
        obtain ⟨e₀, he₀, hp₀⟩ := List.any_eq_true.mp h
        exact List.mem_map.mpr ⟨e₀, he₀, by rw [if_pos hp₀]⟩
      · refine List.mem_map.mpr ⟨e, he, ?_⟩
        rw [if_neg ?_]
        intro hp
        exact hne (by simpa using hp)
  · next h =>
    have h' : g.edges.any (fun e => e.1 == u && e.2.1 == v) = false :=
      Bool.eq_false_iff.mpr h
    rw [List.mem_append, List.mem_singleton]
    constructor
    · rintro (he | he)
      · refine Or.inr ⟨he, ?_⟩
        rintro ⟨h1, h2⟩
        exact List.any_eq_false.mp h' e he (by simp [h1, h2])
      · exact Or.inl he
    · rintro (he | ⟨he, _⟩)
      · exact Or.inr he
      · exact Or.inl he

theorem mem_addEdge_pair_ne {g : Graph} {u v rel : String} {e : String × String × String}
    (hne : ¬(e.1 = u ∧ e.2.1 = v)) :
    e ∈ (g.addEdge u v rel).edges ↔ e ∈ g.edges := by
  rw [mem_addEdge_iff]
  constructor
  · rintro (rfl | ⟨he, _⟩)
    · exact absurd ⟨rfl, rfl⟩ hne
    · exact he
  · intro he
    exact Or.inr ⟨he, hne⟩

end Graph

namespace KG

/-- The `HAS_METHOD` edge from class `c` to method `m`. -/
def MethodEdge (g : Graph) (c m : String) : Prop :=
  ("Class: " ++ c, "Method: " ++ m, "HAS_METHOD") ∈ g.edges

theorem addAnnotationNode_hasNode_mono {g : Graph} (f a : String) {j : String}
    (h : g.hasNode j = true) : (addAnnotationNode g f a).hasNode j = true := by
  unfold addAnnotationNode
  dsimp only
  exact Graph.hasNode_mono_addEdge _ _ _ (Graph.guarded_hasNode_mono h)

theorem addAnnotationNode_nodesWF {g : Graph} (f a : String) (h : g.NodesWF) :
    (addAnnotationNode g f a).NodesWF := by
  unfold addAnnotationNode
  dsimp only
  exact Graph.nodesWF_addEdge _ _ _ (Graph.guarded_nodesWF _ _ h)

theorem addAnnotationNode_methodEdge (g : Graph) (f a c m : String) :
    MethodEdge (addAnnotationNode g f a) c m ↔ MethodEdge g c m := by
  unfold addAnnotationNode MethodEdge
  dsimp only
  rw [Graph.mem_addEdge_pair_ne, Graph.guarded_edges]
  rintro ⟨-, h2⟩
  exact append_ne_of_head_ne m a 'M' 'D' (by decide) (by decide) (by decide) h2

theorem annotFold_hasNode_mono (f : String) (as : List String) :
    ∀ {g : Graph} {j : String}, g.hasNode j = true →
      (as.foldl (fun g a => addAnnotationNode g f a) g).hasNode j = true := by
  induction as with
  | nil => intro g j h; exact h
  | cons a t ih =>
    intro g j h
    exact ih (addAnnotationNode_hasNode_mono f a h)

theorem annotFold_nodesWF (f : String) (as : List String) :
    ∀ {g : Graph}, g.NodesWF →
      (as.foldl (fun g a => addAnnotationNode g f a) g).NodesWF := by
  induction as with
  | nil => intro g h; exact h
  | cons a t ih =>
    intro g h
    exact ih (addAnnotationNode_nodesWF f a h)

theorem annotFold_methodEdge (f : String) (as : List String) :
    ∀ (g : Graph) (c m : String),
      MethodEdge (as.foldl (fun g a => addAnnotationNode g f a) g) c m ↔ MethodEdge g c m := by
  induction as with
  | nil => intro g c m; exact Iff.rfl
  | cons a t ih =>
    intro g c m
    rw [List.foldl_cons, ih, addAnnotationNode_methodEdge]

theorem addClassNode_hasNode_self (g : Graph) (f n : String) :
    (addClassNode g f n).hasNode ("Class: " ++ n) = true := by
  unfold addClassNode
  dsimp only
  exact Graph.hasNode_mono_addEdge _ _ _ (Graph.guarded_hasNode_self g _ _)

theorem addClassNode_nodesWF {g : Graph} (f n : String) (h : g.NodesWF) :
    (addClassNode g f n).NodesWF := by
  unfold addClassNode
  dsimp only
  exact Graph.nodesWF_addEdge _ _ _ (Graph.guarded_nodesWF _ _ h)

theorem addClassNode_methodEdge (g : Graph) (f n c m : String) :
    MethodEdge (addClassNode g f n) c m ↔ MethodEdge g c m := by
  unfold addClassNode MethodEdge
  dsimp only
  rw [Graph.mem_addEdge_pair_ne, Graph.guarded_edges]
  rintro ⟨-, h2⟩
  exact append_ne_of_head_ne m n 'M' 'C' (by decide) (by decide) (by decide) h2

theorem addMethodNode_hasNode_mono {g : Graph} (n : String) (mi : FunctionInfo) {j : String}
    (h : g.hasNode j = true) : (addMethodNode g n mi).1.hasNode j = true := by
  unfold addMethodNode
  dsimp only
  by_cases hm : g.hasNode ("Method: " ++ mi.name) = true
  · rw [if_pos hm]
    split
    · exact Graph.hasNode_mono_addEdge _ _ _ h
    · exact h
  · rw [if_neg hm]
    have h' : (g.addNodeRaw ("Method: " ++ mi.name)
        [("type", .vstr "method"), ("name", .vstr mi.name),
         ("id", .vstr ("Method: " ++ mi.name)),
         ("return_type", .vstr (pyStrOpt mi.return_type)),
         ("parameters", .vlist (mi.parameters.map paramValue)),
         ("decorators", .vlist (mi.decorators.map .vstr))]).hasNode j = true := by
      rw [Graph.hasNode_addNodeRaw, h]; rfl
    split
    · exact Graph.hasNode_mono_addEdge _ _ _ h'
    · exact h'

theorem addMethodNode_nodesWF {g : Graph} (n : String) (mi : FunctionInfo) (h : g.NodesWF) :
    (addMethodNode g n mi).1.NodesWF := by
  unfold addMethodNode
  dsimp only
  by_cases hm : g.hasNode ("Method: " ++ mi.name) = true
  · rw [if_pos hm]
    split
    · exact Graph.nodesWF_addEdge _ _ _ h
    · exact h
  · rw [if_neg hm]
    have h' := Graph.nodesWF_addNodeRaw ("Method: " ++ mi.name)
      [("type", .vstr "method"), ("name", .vstr mi.name),
       ("id", .vstr ("Method: " ++ mi.name)),
       ("return_type", .vstr (pyStrOpt mi.return_type)),
       ("parameters", .vlist (mi.parameters.map paramValue)),
       ("decorators", .vlist (mi.decorators.map .vstr))] h
    split
    · exact Graph.nodesWF_addEdge _ _ _ h'
    · exact h'

theorem addMethodNode_methodEdge {g : Graph} {n : String} (mi : FunctionInfo) (m : String)
    (hcls : g.hasNode ("Class: " ++ n) = true) :
    MethodEdge (addMethodNode g n mi).1 n m ↔ (MethodEdge g n m ∨ m = mi.name) := by
  unfold addMethodNode MethodEdge
  dsimp only
  rw [if_pos (Graph.guarded_hasNode_mono hcls)]
  rw [Graph.mem_addEdge_iff, Graph.guarded_edges]
  constructor
  · rintro (heq | ⟨he, -⟩)
    · right
      have := congrArg (fun e : String × String × String => e.2.1) heq
      exact string_append_left_cancel this
    · exact Or.inl he
  · rintro (he | heq)
    · by_cases hm : m = mi.name
      · subst hm; exact Or.inl rfl
      · refine Or.inr ⟨he, ?_⟩
        rintro ⟨-, h2⟩
        exact hm (string_append_left_cancel h2)
    · subst heq; exact Or.inl rfl

theorem processMethod_hasNode_mono {g : Graph} (f n : String) (mi : FunctionInfo) {j : String}
    (h : g.hasNode j = true) : (processMethod g f n mi).hasNode j = true := by
  unfold processMethod
  dsimp only
  exact annotFold_hasNode_mono f _ (addMethodNode_hasNode_mono n mi h)

theorem processMethod_nodesWF {g : Graph} (f n : String) (mi : FunctionInfo) (h : g.NodesWF) :
    (processMethod g f n mi).NodesWF := by
  unfold processMethod
  dsimp only
  exact annotFold_nodesWF f _ (addMethodNode_nodesWF n mi h)

theorem processMethod_methodEdge {g : Graph} {n : String} (f : String) (mi : FunctionInfo)
    (m : String) (hcls : g.hasNode ("Class: " ++ n) = true) :
    MethodEdge (processMethod g f n mi) n m ↔ (MethodEdge g n m ∨ m = mi.name) := by
  unfold processMethod
  dsimp only
  rw [annotFold_methodEdge, addMethodNode_methodEdge mi m hcls]

theorem methodsFold_hasNode_mono (f n : String) (ms : List FunctionInfo) :
    ∀ {g : Graph} {j : String}, g.hasNode j = true →
      (ms.foldl (fun g m => processMethod g f n m) g).hasNode j = true := by
  induction ms with
  | nil => intro g j h; exact h
  | cons mi t ih =>
    intro g j h
    exact ih (processMethod_hasNode_mono f n mi h)

theorem methodsFold_nodesWF (f n : String) (ms : List FunctionInfo) :
    ∀ {g : Graph}, g.NodesWF →
      (ms.foldl (fun g m => processMethod g f n m) g).NodesWF := by
  induction ms with
  | nil => intro g h; exact h
  | cons mi t ih =>
    intro g h
    exact ih (processMethod_nodesWF f n mi h)

theorem methodsFold_methodEdge (f n : String) (ms : List FunctionInfo) :
    ∀ (g : Graph) (m : String), g.hasNode ("Class: " ++ n) = true →
      (MethodEdge (ms.foldl (fun g m => processMethod g f n m) g) n m ↔
        (MethodEdge g n m ∨ m ∈ ms.map FunctionInfo.name)) := by
  induction ms with
  | nil => intro g m _; simp
  | cons mi t ih =>
    intro g m hcls
    rw [List.foldl_cons,
      ih (processMethod g f n mi) m (processMethod_hasNode_mono f n mi hcls),
      processMethod_methodEdge f mi m hcls]
    simp only [List.map_cons, List.mem_cons]
    tauto

theorem processClass_hasNode_self (g : Graph) (f : String) (ci : ClassInfo) :
    (processClass g f ci).hasNode ("Class: " ++ ci.name) = true := by
  unfold processClass
  dsimp only
  exact methodsFold_hasNode_mono f ci.name ci.methods
    (annotFold_hasNode_mono f ci.decorators (addClassNode_hasNode_self g f ci.name))

theorem processClass_hasNode_mono {g : Graph} (f : String) (ci : ClassInfo) {j : String}
    (h : g.hasNode j = true) : (processClass g f ci).hasNode j = true := by
  unfold processClass
  dsimp only
  apply methodsFold_hasNode_mono f ci.name ci.methods
  apply annotFold_hasNode_mono f ci.decorators
  unfold addClassNode
  dsimp only
  exact Graph.hasNode_mono_addEdge _ _ _ (Graph.guarded_hasNode_mono h)

theorem processClass_nodesWF {g : Graph} (f : String) (ci : ClassInfo) (h : g.NodesWF) :
    (processClass g f ci).NodesWF := by
  unfold processClass
  dsimp only
  exact methodsFold_nodesWF f ci.name ci.methods
    (annotFold_nodesWF f ci.decorators (addClassNode_nodesWF f ci.name h))

theorem processClass_methodEdge (g : Graph) (f : String) (ci : ClassInfo) (m : String) :
    MethodEdge (processClass g f ci) ci.name m ↔
      (MethodEdge g ci.name m ∨ m ∈ ci.methods.map FunctionInfo.name) := by
  unfold processClass
  dsimp only
  rw [methodsFold_methodEdge f ci.name ci.methods _ m
    (annotFold_hasNode_mono f ci.decorators (addClassNode_hasNode_self g f ci.name)),
    annotFold_methodEdge, addClassNode_methodEdge]

end KG

/-- C7: if two files each define `class Foo`, the assembled graph has
exactly one `Class: Foo` node, and the `HAS_METHOD` edges out of that
node aggregate the methods extracted from both files (classes merge by
bare name).  The base graph is any well-formed graph that does not yet
contain `Class: Foo` method edges. -/
theorem two_files_one_class_node (g₀ : Graph) (f₁ f₂ : String) (c₁ c₂ : ClassInfo)
    (h₁ : c₁.name = "Foo") (h₂ : c₂.name = "Foo")
    (hwf : g₀.NodesWF)
    (hbase : ∀ m : String, ¬ KG.MethodEdge g₀ "Foo" m) :
    (KG.processClass (KG.processClass g₀ f₁ c₁) f₂ c₂).nodeCount "Class: Foo" = 1 ∧
      (∀ m : String,
        KG.MethodEdge (KG.processClass (KG.processClass g₀ f₁ c₁) f₂ c₂) "Foo" m ↔
          (m ∈ c₁.methods.map FunctionInfo.name ∨ m ∈ c₂.methods.map FunctionInfo.name)) := by
  constructor
  · apply Graph.nodeCount_eq_one
    · exact KG.processClass_nodesWF f₂ c₂ (KG.processClass_nodesWF f₁ c₁ hwf)
    · have hself := KG.processClass_hasNode_self (KG.processClass g₀ f₁ c₁) f₂ c₂
      rw [h₂] at hself
      exact hself
  · intro m
    have e₂ := KG.processClass_methodEdge (KG.processClass g₀ f₁ c₁) f₂ c₂ m
    rw [h₂] at e₂
    have e₁ := KG.processClass_methodEdge g₀ f₁ c₁ m
    rw [h₁] at e₁
    rw [e₂, e₁]
    have hb := hbase m
    tauto

/-- Witness for `two_files_one_class_node`: `f1.py` defines `Foo.bar`,
`f2.py` defines `Foo.baz`; the merged node carries both method edges. -/
theorem two_files_one_class_node_witness :
    (KG.processClass
        (KG.processClass
          (KG.addPyFileNode (KG.addPyFileNode Graph.empty "f1.py") "f2.py")
          "File: f1.py" ⟨"Foo", [], [], [⟨"bar", [], none, [], false, false, none⟩], none⟩)
        "File: f2.py" ⟨"Foo", [], [], [⟨"baz", [], none, [], false, false, none⟩], none⟩).nodeCount
      "Class: Foo" = 1 ∧
    KG.MethodEdge
      (KG.processClass
        (KG.processClass
          (KG.addPyFileNode (KG.addPyFileNode Graph.empty "f1.py") "f2.py")
          "File: f1.py" ⟨"Foo", [], [], [⟨"bar", [], none, [], false, false, none⟩], none⟩)
        "File: f2.py" ⟨"Foo", [], [], [⟨"baz", [], none, [], false, false, none⟩], none⟩)
      "Foo" "baz" := by
  have h := two_files_one_class_node
    (KG.addPyFileNode (KG.addPyFileNode Graph.empty "f1.py") "f2.py")
    "File: f1.py" "File: f2.py"
    ⟨"Foo", [], [], [⟨"bar", [], none, [], false, false, none⟩], none⟩
    ⟨"Foo", [], [], [⟨"baz", [], none, [], false, false, none⟩], none⟩
    rfl rfl (by unfold Graph.NodesWF; decide)
    (fun m hm => List.not_mem_nil _ hm)
  exact ⟨h.1, (h.2 "baz").mpr (Or.inr (by decide))⟩

/-- The decimal digit list of `n`, most significant first; equals
`Nat.toDigits 10 n` (proved below) but recurses structurally on `n`. -/
def natDigits (n : Nat) : List Char :=
  if h : n < 10 then [Nat.digitChar n]
  else natDigits (n / 10) ++ [Nat.digitChar (n % 10)]
decreasing_by exact Nat.div_lt_self (by omega) (by omega)

theorem natDigits_lt {n : Nat} (h : n < 10) : natDigits n = [Nat.digitChar n] := by
  unfold natDigits
  rw [dif_pos h]

theorem natDigits_ge {n : Nat} (h : ¬ n < 10) :
    natDigits n = natDigits (n / 10) ++ [Nat.digitChar (n % 10)] := by
  conv_lhs => unfold natDigits
  rw [dif_neg h]

theorem toDigitsCore_eq_natDigits (fuel : Nat) :
    ∀ (n : Nat) (ds : List Char), n < fuel →
      Nat.toDigitsCore 10 fuel n ds = natDigits n ++ ds := by
  induction fuel with
  | zero => intro n ds h; omega
  | succ fuel ih =>
    intro n ds h
    unfold Nat.toDigitsCore
    dsimp only
    by_cases h10 : n / 10 = 0
    · rw [if_pos h10]
      have hn : n < 10 := (Nat.div_eq_zero_iff (by omega)).mp h10
      rw [natDigits_lt hn, Nat.mod_eq_of_lt hn]
      rfl
    · rw [if_neg h10]
      have hn : ¬ n < 10 := by
        intro hlt
        exact h10 (Nat.div_eq_of_lt hlt)
      have hrec : n / 10 < fuel := by
        have h1 : n / 10 < n := Nat.div_lt_self (by omega) (by omega)
        omega
      rw [ih (n / 10) _ hrec, natDigits_ge hn]
      simp

theorem toDigits_eq_natDigits (n : Nat) : Nat.toDigits 10 n = natDigits n := by
  unfold Nat.toDigits
  rw [toDigitsCore_eq_natDigits (n + 1) n [] (Nat.lt_succ_self n)]
  simp

/-- Numeric value of a digit character. -/
def digitVal (c : Char) : Nat := c.toNat - 48

/-- Value of a most-significant-first digit string. -/
def digitsVal (l : List Char) : Nat := l.foldl (fun a c => a * 10 + digitVal c) 0

theorem digitVal_digitChar {n : Nat} (h : n < 10) : digitVal (Nat.digitChar n) = n := by
  interval_cases n <;> rfl

theorem digitsVal_natDigits (n : Nat) : digitsVal (natDigits n) = n := by
  induction n using Nat.strong_induction_on with
  | _ n ih =>
    by_cases h : n < 10
    · rw [natDigits_lt h]
      show 0 * 10 + digitVal (Nat.digitChar n) = n
      rw [digitVal_digitChar h]
      omega
    · rw [natDigits_ge h]
      unfold digitsVal
      rw [List.foldl_append]
      have hdiv := ih (n / 10) (Nat.div_lt_self (by omega) (by omega))
      unfold digitsVal at hdiv
      rw [hdiv]
      show n / 10 * 10 + digitVal (Nat.digitChar (n % 10)) = n
      rw [digitVal_digitChar (Nat.mod_lt n (by omega))]
      omega

theorem natRepr_injective : Function.Injective Nat.repr := by
  intro a b h
  have hd : Nat.toDigits 10 a = Nat.toDigits 10 b := by
    have := congrArg String.data h
    simpa [Nat.repr, List.asString] using this
  rw [toDigits_eq_natDigits, toDigits_eq_natDigits] at hd
  have := congrArg digitsVal hd
  rwa [digitsVal_natDigits, digitsVal_natDigits] at this

/-- The surrogate constructor `f"T{idx}"` is injective. -/
theorem surrogate_injective {i j : Nat}
    (h : "T" ++ Nat.repr i = "T" ++ Nat.repr j) : i = j :=
  natRepr_injective (string_append_left_cancel h)

mutual

/-- `collect_terms` from `compression.py`: recurse through lists and
dicts, harvesting `str(k)` for dict keys and `str(value)` for scalars. -/
def collectTerms : Value → List String
  | .vlist l => collectTermsList l
  | .vdict l => collectTermsDict l
  | v => [pyStr v]

/-- `collect_terms` over the items of a list value. -/
def collectTermsList : List Value → List String
  | [] => []
  | v :: vs => collectTerms v ++ collectTermsList vs

/-- `collect_terms` over the items of a dict value. -/
def collectTermsDict : List (String × Value) → List String
  | [] => []
  | (k, v) :: kvs => k :: (collectTerms v ++ collectTermsDict kvs)

end

/-- The JSON object `json_graph.node_link_data` emits for one node: the
node's attribute dict with the node key written at `"id"` (overwriting
in place when the attributes already carry an `id` key, appended
otherwise). -/
def jsonNode (n : String × List (String × Value)) : List (String × Value) :=
  if n.2.any (fun kv => kv.1 == "id") then
    n.2.map (fun kv => if kv.1 == "id" then ("id", Value.vstr n.1) else kv)
  else n.2 ++ [("id", Value.vstr n.1)]

/-- The terms `generate_abbreviations` harvests from one node:
`node["id"]` plus every key and every (recursively collected) value. -/
def nodeTerms (n : String × List (String × Value)) : List String :=
  n.1 :: (jsonNode n).flatMap (fun kv => kv.1 :: collectTerms kv.2)

/-- All terms harvested by `generate_abbreviations`: node terms plus,
for each link, its source, relation and target. -/
def graphTerms (g : Graph) : List String :=
  g.nodes.flatMap nodeTerms ++ g.edges.flatMap (fun e => [e.1, e.2.2, e.2.1])

/-- The Python `unique_terms` set, as a duplicate-free list. -/
def termSet (g : Graph) : List String := (graphTerms g).dedup

/-- Python's `str` comparison: lexicographic on code points. -/
def lexLeChars : List Char → List Char → Bool
  | [], _ => true
  | _ :: _, [] => false
  | a :: as, b :: bs =>
    if a.toNat < b.toNat then true
    else if b.toNat < a.toNat then false
    else lexLeChars as bs

/-- Python's `str` less-or-equal. -/
def lexLe (a b : String) : Bool := lexLeChars a.data b.data

/-- `sorted(unique_terms)`: lexicographic (code-point) order, as
Python's `sorted` on `str`. -/
def sortedTerms (g : Graph) : List String :=
  (termSet g).insertionSort (fun a b => lexLe a b = true)

/-- The codebook: the i-th sorted term (0-based) maps to `f"T{i+1}"`. -/
def abbrevList (g : Graph) : List (String × String) :=
  (sortedTerms g).enum.map (fun p => (p.2, "T" ++ Nat.repr (p.1 + 1)))

/-- `abbreviations.get(term)`: the surrogate of a term, if any. -/
def abbrOf (g : Graph) (t : String) : Option String :=
  ((abbrevList g).find? (fun p => p.1 == t)).map Prod.snd

/-- Decoding direction of the codebook: the term a surrogate stands
for, read off the `# <surrogate>:<term>` codebook lines. -/
def decode (g : Graph) (s : String) : Option String :=
  ((abbrevList g).find? (fun p => p.2 == s)).map Prod.fst

mutual

/-- `abbreviate_value` from `compression.py`.  Lists and dicts recurse
with `[...]`/`\x7b...\x7d` syntax; scalars are substituted by their
surrogate with the literal string as fallback.  A dict key without a
surrogate raises `KeyError` in the source, modelled as `none`. -/
def abbreviateValue (ab : List (String × String)) : Value → Option String
  | .vlist l =>
    (abbreviateList ab l).map (fun items => "[" ++ String.intercalate "," items ++ "]")
  | .vdict l =>
    (abbreviateDict ab l).map (fun items => "\x7b" ++ String.intercalate "," items ++ "\x7d")
  | v => some (((ab.find? (fun p => p.1 == pyStr v)).map Prod.snd).getD (pyStr v))

/-- `abbreviate_value` over list items. -/
def abbreviateList (ab : List (String × String)) : List Value → Option (List String)
  | [] => some []
  | v :: vs => do
    let s ← abbreviateValue ab v
    let rest ← abbreviateList ab vs
    pure (s :: rest)

/-- `abbreviate_value` over dict items (`k_abbr:v_abbr`). -/
def abbreviateDict (ab : List (String × String)) : List (String × Value) → Option (List String)
  | [] => some []
  | (k, v) :: kvs => do
    let ka ← (ab.find? (fun p => p.1 == k)).map Prod.snd
    let va ← abbreviateValue ab v
    let rest ← abbreviateDict ab kvs
    pure ((ka ++ ":" ++ va) :: rest)

end

theorem sortedTerms_nodup (g : Graph) : (sortedTerms g).Nodup :=
  (List.perm_insertionSort _ _).nodup_iff.mpr (List.nodup_dedup _)

theorem abbrevList_map_fst (g : Graph) : (abbrevList g).map Prod.fst = sortedTerms g := by
  unfold abbrevList
  rw [List.map_map]
  show (sortedTerms g).enum.map Prod.snd = sortedTerms g
  rw [List.enum_eq_enumFrom]
  exact List.enumFrom_map_snd 0 _

theorem abbrevList_fst_nodup (g : Graph) : ((abbrevList g).map Prod.fst).Nodup := by
  rw [abbrevList_map_fst]
  exact sortedTerms_nodup g

theorem abbrevList_snd_nodup (g : Graph) : ((abbrevList g).map Prod.snd).Nodup := by
  unfold abbrevList
  rw [List.map_map]
  apply List.Nodup.map_on
  · intro x hx y hy hf
    have hidx : x.1 = y.1 := by
      have := surrogate_injective hf
      omega
    obtain ⟨i, a⟩ := x
    obtain ⟨j, b⟩ := y
    cases hidx
    have hxa := List.mk_mem_enum_iff_getElem?.mp hx
    have hyb := List.mk_mem_enum_iff_getElem?.mp hy
    rw [hxa] at hyb
    have hab : a = b := by simpa using hyb
    rw [hab]
  · exact List.Nodup.of_map Prod.fst (List.nodup_enum_map_fst _)

theorem abbrevList_getElem? (g : Graph) (i : Nat) :
    (abbrevList g)[i]? = ((sortedTerms g)[i]?).map (fun t => (t, "T" ++ Nat.repr (i + 1))) := by
  unfold abbrevList
  rw [List.getElem?_map, List.enum_eq_enumFrom, List.getElem?_enumFrom]
  cases (sortedTerms g)[i]? <;> simp

theorem find?_by_proj {α : Type} {f : α → String} {l : List α}
    (hnd : (l.map f).Nodup) {p : α} (hp : p ∈ l) :
    l.find? (fun q => f q == f p) = some p := by
  induction l with
  | nil => cases hp
  | cons a t ih =>
    rw [List.map_cons, List.nodup_cons] at hnd
    rcases List.mem_cons.mp hp with rfl | hp'
    · rw [List.find?_cons_of_pos _ (by simp)]
    · have hne : f a ≠ f p := fun h => hnd.1 (h ▸ List.mem_map_of_mem f hp')
      rw [List.find?_cons_of_neg _ (by simpa using hne)]
      exact ih hnd.2 hp'

theorem decode_entry {g : Graph} {p : String × String} (hp : p ∈ abbrevList g) :
    decode g p.2 = some p.1 := by
  unfold decode
  rw [find?_by_proj (abbrevList_snd_nodup g) hp]
  rfl

theorem abbrOf_entry {g : Graph} {p : String × String} (hp : p ∈ abbrevList g) :
    abbrOf g p.1 = some p.2 := by
  unfold abbrOf
  rw [find?_by_proj (abbrevList_fst_nodup g) hp]
  rfl

theorem mem_abbrevList_of_mem_graphTerms {g : Graph} {t : String}
    (ht : t ∈ graphTerms g) : ∃ p ∈ abbrevList g, p.1 = t := by
  have h1 : t ∈ termSet g := List.mem_dedup.mpr ht
  have h2 : t ∈ sortedTerms g := ((List.perm_insertionSort _ _).mem_iff).mpr h1
  have h3 : t ∈ (abbrevList g).map Prod.fst := by
    rw [abbrevList_map_fst]; exact h2
  obtain ⟨p, hp, hpt⟩ := List.mem_map.mp h3
  exact ⟨p, hp, hpt⟩

/-- C6: the codebook is a bijection between the harvested term set and
the surrogates — its term column is duplicate-free and equals the
sorted term set, its surrogate column is duplicate-free, the i-th
(0-based) sorted term receives surrogate `T(i+1)`, decoding any
codebook surrogate reconstructs its term exactly, and every scalar
harvested from a node value (at any nesting depth, so in particular
inside `[...]` lists and `\x7b...\x7d` dicts of the encoded text) has a
surrogate whose decoding reconstructs the original term string. -/
theorem codebook_bijection_roundtrip (g : Graph) :
    ((abbrevList g).map Prod.fst).Nodup ∧
      ((abbrevList g).map Prod.snd).Nodup ∧
      (∀ i : Nat, (abbrevList g)[i]?
        = ((sortedTerms g)[i]?).map (fun t => (t, "T" ++ Nat.repr (i + 1)))) ∧
      (∀ p ∈ abbrevList g, decode g p.2 = some p.1) ∧
      (∀ n ∈ g.nodes, ∀ kv ∈ jsonNode n, ∀ t ∈ collectTerms kv.2,
        ∃ s, abbrOf g t = some s ∧ decode g s = some t) := by
  refine ⟨abbrevList_fst_nodup g, abbrevList_snd_nodup g, abbrevList_getElem? g,
    fun p hp => decode_entry hp, ?_⟩
  intro n hn kv hkv t ht
  have hterm : t ∈ graphTerms g := by
    unfold graphTerms
    rw [List.mem_append]
    left
    apply List.mem_flatMap_of_mem hn
    unfold nodeTerms
    apply List.mem_cons_of_mem
    apply List.mem_flatMap_of_mem hkv
    exact List.mem_cons_of_mem _ ht
  obtain ⟨p, hp, hpt⟩ := mem_abbrevList_of_mem_graphTerms hterm
  subst hpt
  exact ⟨p.2, abbrOf_entry hp, decode_entry hp⟩

/-- Witness for `codebook_bijection_roundtrip`: a one-node graph whose
codebook maps `A ↦ T1`, `id ↦ T2`. -/
theorem codebook_bijection_roundtrip_witness :
    decode ⟨[("A", [("id", Value.vstr "A")])], []⟩ "T1" = some "A" ∧
      (abbrevList ⟨[("A", [("id", Value.vstr "A")])], []⟩)[0]?
        = some ("A", "T" ++ Nat.repr 1) := by
  have h := codebook_bijection_roundtrip ⟨[("A", [("id", Value.vstr "A")])], []⟩
  constructor
  · exact h.2.2.2.1 ("A", "T1") (by decide)
  · rw [h.2.2.1 0]
    decide

/-- The whitespace characters Python's `str.strip()` removes. -/
def isPySpace (c : Char) : Bool :=
  c == ' ' || c == '\t' || c == '\n' || c == '\r' || c == '\x0b' || c == '\x0c'

/-- Python `str.strip()` on a character list. -/
def stripChars (l : List Char) : List Char :=
  ((l.dropWhile isPySpace).reverse.dropWhile isPySpace).reverse

/-- Python `str.strip()`. -/
def pyStrip (s : String) : String := ⟨stripChars s.data⟩

/-- Python `str.split(sep)` (no maxsplit): split on every separator,
keeping empty pieces. -/
def splitChar (sep : Char) : List Char → List (List Char)
  | [] => [[]]
  | c :: cs =>
    match splitChar sep cs with
    | [] => [[c]]
    | h :: t => if c == sep then [] :: h :: t else (c :: h) :: t

/-- Python `str.split(sep, 1)`: split at the first separator only;
`none` when the separator does not occur. -/
def splitOnceChar (sep : Char) : List Char → List Char × Option (List Char)
  | [] => ([], none)
  | c :: cs =>
    if c == sep then ([], some cs)
    else
      let r := splitOnceChar sep cs
      (c :: r.1, r.2)

/-- The depth-aware comma split in `_parse_parameters`: commas at
bracket depth zero separate segments (and are dropped); every other
character, brackets included, is appended to the current segment.
Segments are stripped as they are appended, and a non-empty trailing
segment is appended at the end, as in the source. -/
def paramSplitLoop (depth : Int) (current : List Char) (acc : List (List Char)) :
    List Char → List (List Char)
  | [] => if current ≠ [] then acc ++ [stripChars current] else acc
  | c :: cs =>
    if c == '(' || c == '[' || c == '\x7b' then
      paramSplitLoop (depth + 1) (current ++ [c]) acc cs
    else if c == ')' || c == ']' || c == '\x7d' then
      paramSplitLoop (depth - 1) (current ++ [c]) acc cs
    else if c == ',' && depth == 0 then
      paramSplitLoop depth [] (acc ++ [stripChars current]) cs
    else
      paramSplitLoop depth (current ++ [c]) acc cs

/-- The per-segment parsing in `_parse_parameters`: strip, skip empty
segments, split on `:` (every colon — only the first two pieces are
used), then split the piece after the first colon on `=`; without a
colon, split the whole segment on the first `=`. -/
def parseParam (raw : List Char) : Option Parameter :=
  let param := stripChars raw
  if param = [] then none
  else
    let parts := splitChar ':' param
    let name := stripChars (parts.headD [])
    match parts with
    | _ :: second :: _ =>
      let typeParts := splitChar '=' second
      let typeHint := stripChars (typeParts.headD [])
      match typeParts with
      | _ :: tp1 :: _ =>
        some ⟨⟨name⟩, some ⟨typeHint⟩, some ⟨stripChars tp1⟩⟩
      | _ => some ⟨⟨name⟩, some ⟨typeHint⟩, none⟩
    | _ =>
      if name.contains '=' then
        let r := splitOnceChar '=' name
        some ⟨⟨stripChars r.1⟩, none, some ⟨stripChars (r.2.getD [])⟩⟩
      else
        some ⟨⟨name⟩, none, none⟩

/-- `CodeIdentifierExtractor._parse_parameters`. -/
def parseParameters (params_str : String) : List Parameter :=
  if (pyStrip params_str).data = [] then []
  else (paramSplitLoop 0 [] [] params_str.data).filterMap parseParam

/-- C2 as stated is false on the code: for the quoted input the first
parameter's default value is truncated at the second colon, because the
segment is split on *every* colon and only the piece between the first
and second colon feeds the `=`-split. -/
theorem parseParameters_claim_counterexample :
    parseParameters "x: Dict[str, int] = \x7b\"a\": 1\x7d, y: int = 2" ≠
      [⟨"x", some "Dict[str, int]", some "\x7b\"a\": 1\x7d"⟩,
       ⟨"y", some "int", some "2"⟩] := by
  decide

/-- C2 amended: the depth-aware comma split yields exactly two
parameters, `x` with type hint `Dict[str, int]` and `y` with type hint
`int` and default `2`; but `x`'s captured default value is `\x7b"a"` —
the text between `=` and the *second* colon — not the full literal. -/
theorem parseParameters_depth_split :
    parseParameters "x: Dict[str, int] = \x7b\"a\": 1\x7d, y: int = 2" =
      [⟨"x", some "Dict[str, int]", some "\x7b\"a\""⟩,
       ⟨"y", some "int", some "2"⟩] := by
  decide

/-- Python `\w` (ASCII range): letters, digits, underscore. -/
def isWordChar (c : Char) : Bool := c.isAlphanum || c == '_'

/-- Python `str.splitlines()`: split on `\r\n`, `\r` or `\n`, with no
trailing empty line for a trailing terminator. -/
def splitlinesGo (l : List Char) (cur : List Char) : List (List Char) :=
  match l with
  | [] => if cur.isEmpty then [] else [cur.reverse]
  | '\r' :: '\n' :: rest => cur.reverse :: splitlinesGo rest []
  | '\r' :: rest => cur.reverse :: splitlinesGo rest []
  | '\n' :: rest => cur.reverse :: splitlinesGo rest []
  | c :: rest => splitlinesGo rest (c :: cur)

/-- `content.splitlines()`. -/
def splitlines (s : String) : List (List Char) := splitlinesGo s.data []

/-- The `(?:\.\w+)*` part of the decorator pattern: consume repeated
`.word` segments, returning them and the rest (fuel-driven so that the
kernel can evaluate it; one fuel unit per segment suffices). -/
def dotSegsF : Nat → List Char → List Char × List Char
  | 0, l => ([], l)
  | fuel + 1, l =>
    match l with
    | '.' :: rest =>
      let w := rest.takeWhile isWordChar
      if w.isEmpty then ([], l)
      else
        let r := dotSegsF fuel (rest.drop w.length)
        ('.' :: (w ++ r.1), r.2)
    | _ => ([], l)

/-- `(?:\.\w+)*` with enough fuel for its input. -/
def dotSegs (l : List Char) : List Char × List Char := dotSegsF l.length l

/-- `re.match` of the decorator pattern `@(\w+(?:\.\w+)*(?:\(.*?\))?)`,
returning the captured group. -/
def decoratorMatch (l : List Char) : Option String :=
  match l with
  | '@' :: rest =>
    let w := rest.takeWhile isWordChar
    if w.isEmpty then none
    else
      let r := dotSegs (rest.drop w.length)
      match r.2 with
      | '(' :: r3 =>
        match splitOnceChar ')' r3 with
        | (_, none) => some ⟨w ++ r.1⟩
        | (inside, some _) => some ⟨w ++ r.1 ++ ('(' :: (inside ++ [')']))⟩
      | _ => some ⟨w ++ r.1⟩
  | _ => none

/-- The capture of a decorator line, as the list `decorators.append`
extends (empty when the pattern does not match). -/
def decMatchList (line : List Char) : List String :=
  match decoratorMatch line with
  | some d => [d]
  | none => []

/-- The tail `\s*(?:->\s*([^:]+))?:` of the function pattern, applied
after the closing parenthesis; returns the captured return type. -/
def funcTail (l : List Char) : Option (Option String) :=
  let l1 := l.dropWhile isPySpace
  match l1 with
  | '-' :: '>' :: r =>
    let r1 := r.dropWhile isPySpace
    let seg := r1.takeWhile (fun c => !(c == ':'))
    if seg.isEmpty then none
    else
      match r1.drop seg.length with
      | ':' :: _ => some (some ⟨seg⟩)
      | _ => none
  | ':' :: _ => some none
  | _ => none

/-- The non-greedy `(.*?)\)` of the function pattern: take the shortest
parameter text whose closing parenthesis is followed by a matching
tail. -/
def findParams : List Char → Option (List Char × Option String)
  | [] => none
  | c :: cs =>
    if c == ')' then
      match funcTail cs with
      | some rt => some ([], rt)
      | none => (findParams cs).map (fun r => (c :: r.1, r.2))
    else (findParams cs).map (fun r => (c :: r.1, r.2))

/-- `re.match` of the function pattern
`(?:async\s+)?def\s+(\w+)\s*\((.*?)\)\s*(?:->\s*([^:]+))?:`, returning
(name, raw parameter text, raw return type). -/
def matchFunc (l : List Char) : Option (String × String × Option String) :=
  let afterAsync : List Char :=
    match l with
    | 'a' :: 's' :: 'y' :: 'n' :: 'c' :: rest =>
      let sp := rest.takeWhile isPySpace
      if sp.isEmpty then l else rest.drop sp.length
    | _ => l
  match afterAsync with
  | 'd' :: 'e' :: 'f' :: rest =>
    let sp := rest.takeWhile isPySpace
    if sp.isEmpty then none
    else
      let r1 := rest.drop sp.length
      let nm := r1.takeWhile isWordChar
      if nm.isEmpty then none
      else
        match (r1.drop nm.length).dropWhile isPySpace with
        | '(' :: r3 => (findParams r3).map (fun r => (⟨nm⟩, ⟨r.1⟩, r.2))
        | _ => none
  | _ => none

/-- `line.startswith(pre)`. -/
def startsWithChars (pre l : List Char) : Bool := pre.isPrefixOf l

/-- The body of `extract_functions`: consecutive `@` lines accumulate
decorator captures for the next candidate line; a candidate line is
matched against the function pattern, and the indentation guard tests
the already-stripped line.  One recursive step per input line, exactly
as the source's index-driven while loop. -/
def extractFunctionsLoop (decs : List String) : List (List Char) → List FunctionInfo
  | [] => []
  | l :: rest =>
    let line := stripChars l
    match line with
    | '@' :: lrest =>
      extractFunctionsLoop (decs ++ decMatchList ('@' :: lrest)) rest
    | _ =>
      (match matchFunc line with
        | some (nm, ps, rt) =>
          if !(startsWithChars [' '] line) && !(startsWithChars ['\t'] line) then
            [⟨nm, parseParameters ps, rt.map pyStrip, decs,
              startsWithChars "async".data line, false, none⟩]
          else []
        | none => []) ++ extractFunctionsLoop [] rest

/-- `CodeIdentifierExtractor.extract_functions`. -/
def extractFunctions (content : String) : List FunctionInfo :=
  extractFunctionsLoop [] (splitlines content)

/-- C9 fails on the code: `extract_functions` strips each line before
testing `line.startswith(' ')`, so the indentation guard can never
fire and a `def` nested inside a class body is returned as a top-level
function.  Evaluating the embedded scanner on such a file shows the
nested method `m` in the output. -/
theorem extractFunctions_includes_nested_def :
    extractFunctions "class A:\n    def m(self):\n        pass" =
      [⟨"m", [⟨"self", none, none⟩], none, [], false, false, none⟩] := by
  decide

/-- Substring test (Python's `in` on `str`). -/
def containsSeq (pat : List Char) : List Char → Bool
  | [] => pat.isEmpty
  | c :: t => pat.isPrefixOf (c :: t) || containsSeq pat t

/-- `re.match(r'^[ \t]*("""|\'\'\')', line)`: the docstring opening
match, returning the delimiter (the `"""` alternative is tried first). -/
def docstringStart (l : List Char) : Option (List Char) :=
  let afterWs := l.dropWhile (fun c => c == ' ' || c == '\t')
  if startsWithChars ['"', '"', '"'] afterWs then some ['"', '"', '"']
  else if startsWithChars ['\'', '\'', '\''] afterWs then some ['\'', '\'', '\'']
  else none

/-- `re.match(r'^[ \t]*(def|class)\s+(\w+)\s*[\(:]?', prev_line)`:
the associated-declaration match, returning the captured name. -/
def defClassMatch (l : List Char) : Option String :=
  let afterWs := l.dropWhile (fun c => c == ' ' || c == '\t')
  let tryKw : List Char → Option String := fun kwRest =>
    let sp := kwRest.takeWhile isPySpace
    if sp.isEmpty then none
    else
      let r := kwRest.drop sp.length
      let w := r.takeWhile isWordChar
      if w.isEmpty then none else some ⟨w⟩
  if startsWithChars "def".data afterWs then tryKw (afterWs.drop 3)
  else if startsWithChars "class".data afterWs then tryKw (afterWs.drop 5)
  else none

/-- Word-boundary after a keyword: end of text or a non-word char. -/
def boundaryOk : List Char → Bool
  | [] => true
  | c :: _ => !isWordChar c

/-- Case-insensitive keyword at the head of `l` with a trailing `\b`. -/
def upperPrefix (w : List Char) (l : List Char) : Bool :=
  ((l.take w.length).map Char.toUpper == w) && boundaryOk (l.drop w.length)

/-- Scan for `\b(TODO|FIXME)\b` (case-insensitive), tracking the
previous character for the leading word boundary. -/
def scanTF : Char → List Char → Bool
  | prevC, c :: cs =>
    (!isWordChar prevC &&
      (upperPrefix "TODO".data (c :: cs) || upperPrefix "FIXME".data (c :: cs)))
    || scanTF c cs
  | _, [] => false

/-- `re.search` of `#.*\b(TODO|FIXME)\b.*` (IGNORECASE): a `#` somewhere
in the line with a word-bounded TODO/FIXME after it. -/
def todoFixmeSearch (l : List Char) : Bool :=
  match splitOnceChar '#' l with
  | (_, some rest) => scanTF '#' rest
  | (_, none) => false

/-- The mutable scanner state of `extract_comments`. -/
structure ScanState where
  inDoc : Bool
  delim : List Char
  startLine : Int
  content : List Char
  assoc : Option String

/-- The line loop of `CommentProcessor.extract_comments`: docstrings
open on a `^[ \t]*("""|''')` line while not already inside one, close
when the same delimiter appears in a *later* stripped line, and the
associated element is read off the raw line immediately preceding the
opening line; other lines are scanned for `#` comments with
TODO-before-FIXME tagging. -/
def extractCommentsGo (idx : Nat) (prev : Option (List Char)) (st : ScanState) :
    List (List Char) → List CommentInfo
  | [] => []
  | line :: rest =>
    let lineNumber : Int := Int.ofNat idx + 1
    let stripped := stripChars line
    if st.inDoc then
      let content' := st.content ++ '\n' :: line
      if containsSeq st.delim stripped then
        ⟨⟨stripChars content'⟩, st.startLine, .docstring, st.assoc, []⟩ ::
          extractCommentsGo (idx + 1) (some line)
            ⟨false, [], st.startLine, [], none⟩ rest
      else
        extractCommentsGo (idx + 1) (some line) { st with content := content' } rest
    else
      match docstringStart line with
      | some d =>
        let assoc' :=
          match prev with
          | some pl =>
            match defClassMatch pl with
            | some nm => some nm
            | none => st.assoc
          | none => st.assoc
        extractCommentsGo (idx + 1) (some line) ⟨true, d, lineNumber, line, assoc'⟩ rest
      | none =>
        (match splitOnceChar '#' line with
          | (_, some after) =>
            let commentText := stripChars ('#' :: after)
            let upper := commentText.map Char.toUpper
            let tyTags : CommentType × List String :=
              if todoFixmeSearch line then
                if containsSeq "TODO".data upper then (.todo, ["TODO"])
                else if containsSeq "FIXME".data upper then (.fixme, ["FIXME"])
                else (.inline, [])
              else (.inline, [])
            [⟨⟨commentText⟩, lineNumber, tyTags.1, none, tyTags.2⟩]
          | (_, none) => []) ++ extractCommentsGo (idx + 1) (some line) st rest

/-- `CommentProcessor.extract_comments` (lines come from
`content.split('\n')`). -/
def extractComments (content : String) : List CommentInfo :=
  extractCommentsGo 0 none ⟨false, [], 0, [], none⟩ (splitChar '\n' content.data)

/-- C3 fails on the code: the scanner closes a docstring only when the
delimiter reappears on a *later* line, so for the two-line file
`class Foo:` / `"""does foo"""` the docstring opened on line 2 never
closes and `extract_comments` returns no comment at all. -/
theorem extractComments_single_line_docstring_counterexample :
    extractComments "class Foo:\n\"\"\"does foo\"\"\"" = [] := by
  decide

/-- C3 amended: a docstring whose delimiter reappears on a later line
is emitted with the class association — `class Foo:` followed by
`"""does foo` and a closing `"""` line yields exactly one
docstring-typed comment with `associated_element == "Foo"`; a docstring
that opens and closes on the same line never closes, yielding nothing. -/
theorem extractComments_docstring_associated :
    extractComments "class Foo:\n\"\"\"does foo\n\"\"\"" =
      [⟨"\"\"\"does foo\n\"\"\"", 2, .docstring, some "Foo", []⟩] := by
  decide

/-- Structural facts a single Python file contributes to the graph
(the extractor outputs `_process_file_contents` iterates over). -/
inductive PyFact where
  | importFact (importName : String)
  | classFact (ci : ClassInfo)
  | commentFact (c : CommentInfo)
  | logFact (message level : String)

/-- Dispatch of `_process_file_contents` on one extracted fact. -/
def processFact (env : PyEnv) (g : Graph) (fileNode : String) : PyFact → Graph
  | .importFact n => KG.addImportNode g fileNode n
  | .classFact ci => KG.processClass g fileNode ci
  | .commentFact c => KG.addCommentNode env g fileNode c
  | .logFact m lv => KG.addLogStatementNode env g fileNode m lv

/-- `_process_python_file`: add the `File:` node, then push every
extracted fact. -/
def processFile (env : PyEnv) (g : Graph) (relativePath : String) (facts : List PyFact) : Graph :=
  facts.foldl (fun g f => processFact env g ("File: " ++ relativePath) f)
    (KG.addPyFileNode g relativePath)

/-- The whole assembly pass over the walked files. -/
def buildGraph (env : PyEnv) (files : List (String × List PyFact)) : Graph :=
  files.foldl (fun g fl => processFile env g fl.1 fl.2) Graph.empty

/-- The saved artifact of `save_graph`, reduced to the run-dependent
parts the claim is about: the graph plus the `analysis_timestamp`
(`datetime.now().isoformat()`) embedded in the metadata. -/
def savedOutput (env : PyEnv) (files : List (String × List PyFact)) : Graph × String :=
  (buildGraph env files, env.now)

/-- Node ids derived from Python's salted `hash()`: comment and
log-statement nodes. -/
def isHashId (id : String) : Bool :=
  startsWithChars "Comment: ".data id.data || startsWithChars "Log: ".data id.data

/-- The nodes of the graph that do not carry a hash-derived id. -/
def hashFree (g : Graph) : List (String × List (String × Value)) :=
  g.nodes.filter (fun p => !isHashId p.1)

theorem isHashId_file (s : String) : isHashId ("File: " ++ s) = false := rfl

theorem isHashId_import (s : String) : isHashId ("Import: " ++ s) = false := rfl

theorem isHashId_class (s : String) : isHashId ("Class: " ++ s) = false := rfl

theorem isHashId_method (s : String) : isHashId ("Method: " ++ s) = false := rfl

theorem isHashId_decorator (s : String) : isHashId ("Decorator: " ++ s) = false := rfl

theorem isHashId_comment (s : String) : isHashId ("Comment: " ++ s) = true := by
  unfold isHashId startsWithChars
  have hpre : "Comment: ".data.isPrefixOf ("Comment: " ++ s).data = true := by
    rw [String.data_append]
    exact List.isPrefixOf_iff_prefix.mpr (List.prefix_append _ _)
  rw [hpre, Bool.true_or]

theorem isHashId_log (s : String) : isHashId ("Log: " ++ s) = true := by
  unfold isHashId startsWithChars
  have hpre : "Log: ".data.isPrefixOf ("Log: " ++ s).data = true := by
    rw [String.data_append]
    exact List.isPrefixOf_iff_prefix.mpr (List.prefix_append _ _)
  rw [hpre, Bool.or_true]

theorem any_eq_any_filter {id : String} (hid : isHashId id = false) :
    ∀ l : List (String × List (String × Value)),
      l.any (fun p => p.1 == id) = (l.filter (fun p => !isHashId p.1)).any (fun p => p.1 == id)
  | [] => rfl
  | p :: t => by
    by_cases hp : isHashId p.1 = true
    · have hne : (p.1 == id) = false := by
        rw [beq_eq_false_iff_ne]
        intro he
        rw [he, hid] at hp
        cases hp
      rw [List.any_cons, hne, List.filter_cons, if_neg (by simp [hp])]
      simp only [Bool.false_or]
      exact any_eq_any_filter hid t
    · have hp' : isHashId p.1 = false := Bool.eq_false_iff.mpr hp
      rw [List.any_cons, List.filter_cons, if_pos (by simp [hp']), List.any_cons]
      rw [any_eq_any_filter hid t]

theorem hasNode_eq_of_hashFree_eq {g₁ g₂ : Graph} {id : String}
    (hid : isHashId id = false) (h : hashFree g₁ = hashFree g₂) :
    g₁.hasNode id = g₂.hasNode id := by
  unfold Graph.hasNode
  rw [any_eq_any_filter hid g₁.nodes, any_eq_any_filter hid g₂.nodes]
  unfold hashFree at h
  rw [h]

theorem string_append_assoc (a b c : String) : (a ++ b) ++ c = a ++ (b ++ c) :=
  String.ext (by
    rw [String.data_append, String.data_append, String.data_append, String.data_append,
      List.append_assoc])

theorem isHashId_comment_id (a b : String) :
    isHashId ("Comment: " ++ a ++ "_" ++ b) = true := by
  rw [string_append_assoc, string_append_assoc]
  exact isHashId_comment _

theorem hashFree_guarded_nonhash {g₁ g₂ : Graph} (id : String) (attrs : List (String × Value))
    (hid : isHashId id = false) (h : hashFree g₁ = hashFree g₂) :
    hashFree (if g₁.hasNode id then g₁ else g₁.addNodeRaw id attrs) =
      hashFree (if g₂.hasNode id then g₂ else g₂.addNodeRaw id attrs) := by
  have he := hasNode_eq_of_hashFree_eq hid h
  by_cases h1 : g₁.hasNode id = true
  · have h2 : g₂.hasNode id = true := by rw [← he]; exact h1
    rw [if_pos h1, if_pos h2]
    exact h
  · have h1' : g₁.hasNode id = false := Bool.eq_false_iff.mpr h1
    have h2' : g₂.hasNode id = false := by rw [← he]; exact h1'
    rw [if_neg h1, if_neg (by simp [h2'])]
    unfold hashFree
    rw [Graph.addNodeRaw_nodes_of_not_hasNode h1' attrs,
      Graph.addNodeRaw_nodes_of_not_hasNode h2' attrs,
      List.filter_append, List.filter_append]
    unfold hashFree at h
    rw [h]

theorem hashFree_guarded_hash {g : Graph} (id : String) (attrs : List (String × Value))
    (hid : isHashId id = true) :
    hashFree (if g.hasNode id then g else g.addNodeRaw id attrs) = hashFree g := by
  split
  · rfl
  · next hno =>
    unfold hashFree
    rw [Graph.addNodeRaw_nodes_of_not_hasNode (Bool.eq_false_iff.mpr hno) attrs,
      List.filter_append]
    simp [hid]

theorem hashFree_ensure_nonhash {g₁ g₂ : Graph} (id : String)
    (hid : isHashId id = false) (h : hashFree g₁ = hashFree g₂) :
    hashFree (g₁.ensureNode id) = hashFree (g₂.ensureNode id) := by
  have he := hasNode_eq_of_hashFree_eq hid h
  by_cases h1 : g₁.hasNode id = true
  · have h2 : g₂.hasNode id = true := by rw [← he]; exact h1
    rw [Graph.ensureNode_of_hasNode h1, Graph.ensureNode_of_hasNode h2]
    exact h
  · have h1' : g₁.hasNode id = false := Bool.eq_false_iff.mpr h1
    have h2' : g₂.hasNode id = false := by rw [← he]; exact h1'
    unfold hashFree
    rw [Graph.ensureNode_nodes_of_not_hasNode h1',
      Graph.ensureNode_nodes_of_not_hasNode h2',
      List.filter_append, List.filter_append]
    unfold hashFree at h
    rw [h]

theorem hashFree_ensure_hash {g : Graph} (id : String) (hid : isHashId id = true) :
    hashFree (g.ensureNode id) = hashFree g := by
  unfold Graph.ensureNode
  split
  · rfl
  · unfold hashFree
    dsimp only
    rw [List.filter_append]
    simp [hid]

theorem addEdge_nodes_eq (g : Graph) (u v rel : String) :
    (g.addEdge u v rel).nodes = ((g.ensureNode u).ensureNode v).nodes := by
  unfold Graph.addEdge
  dsimp only
  split <;> rfl

theorem hashFree_addEdge_eq (g : Graph) (u v rel : String) :
    hashFree (g.addEdge u v rel) = hashFree ((g.ensureNode u).ensureNode v) := by
  unfold hashFree
  rw [addEdge_nodes_eq]

theorem hashFree_addEdge_nonhash {g₁ g₂ : Graph} (u v rel : String)
    (hu : isHashId u = false) (hv : isHashId v = false) (h : hashFree g₁ = hashFree g₂) :
    hashFree (g₁.addEdge u v rel) = hashFree (g₂.addEdge u v rel) := by
  rw [hashFree_addEdge_eq, hashFree_addEdge_eq]
  exact hashFree_ensure_nonhash v hv (hashFree_ensure_nonhash u hu h)

theorem hashFree_addEdge_hash_target {g₁ g₂ : Graph} (u v₁ v₂ rel₁ rel₂ : String)
    (hu : isHashId u = false) (hv₁ : isHashId v₁ = true) (hv₂ : isHashId v₂ = true)
    (h : hashFree g₁ = hashFree g₂) :
    hashFree (g₁.addEdge u v₁ rel₁) = hashFree (g₂.addEdge u v₂ rel₂) := by
  rw [hashFree_addEdge_eq, hashFree_addEdge_eq, hashFree_ensure_hash v₁ hv₁,
    hashFree_ensure_hash v₂ hv₂]
  exact hashFree_ensure_nonhash u hu h

theorem hashFree_addImportNode {g₁ g₂ : Graph} (f n : String)
    (hf : isHashId f = false) (h : hashFree g₁ = hashFree g₂) :
    hashFree (KG.addImportNode g₁ f n) = hashFree (KG.addImportNode g₂ f n) := by
  unfold KG.addImportNode
  dsimp only
  exact hashFree_addEdge_nonhash f _ _ hf (isHashId_import n)
    (hashFree_guarded_nonhash _ _ (isHashId_import n) h)

theorem hashFree_addClassNode {g₁ g₂ : Graph} (f n : String)
    (hf : isHashId f = false) (h : hashFree g₁ = hashFree g₂) :
    hashFree (KG.addClassNode g₁ f n) = hashFree (KG.addClassNode g₂ f n) := by
  unfold KG.addClassNode
  dsimp only
  exact hashFree_addEdge_nonhash f _ _ hf (isHashId_class n)
    (hashFree_guarded_nonhash _ _ (isHashId_class n) h)

theorem hashFree_addAnnotationNode {g₁ g₂ : Graph} (f a : String)
    (hf : isHashId f = false) (h : hashFree g₁ = hashFree g₂) :
    hashFree (KG.addAnnotationNode g₁ f a) = hashFree (KG.addAnnotationNode g₂ f a) := by
  unfold KG.addAnnotationNode
  dsimp only
  exact hashFree_addEdge_nonhash f _ _ hf (isHashId_decorator a)
    (hashFree_guarded_nonhash _ _ (isHashId_decorator a) h)

theorem hashFree_addMethodNode {g₁ g₂ : Graph} (n : String) (mi : FunctionInfo)
    (h : hashFree g₁ = hashFree g₂) :
    hashFree (KG.addMethodNode g₁ n mi).1 = hashFree (KG.addMethodNode g₂ n mi).1 := by
  unfold KG.addMethodNode
  dsimp only
  have h' := hashFree_guarded_nonhash ("Method: " ++ mi.name)
    [("type", .vstr "method"), ("name", .vstr mi.name),
     ("id", .vstr ("Method: " ++ mi.name)),
     ("return_type", .vstr (pyStrOpt mi.return_type)),
     ("parameters", .vlist (mi.parameters.map KG.paramValue)),
     ("decorators", .vlist (mi.decorators.map .vstr))]
    (isHashId_method mi.name) h
  have hcls := hasNode_eq_of_hashFree_eq (isHashId_class n) h'
  by_cases hc : (if g₁.hasNode ("Method: " ++ mi.name) = true then g₁
      else g₁.addNodeRaw ("Method: " ++ mi.name)
        [("type", .vstr "method"), ("name", .vstr mi.name),
         ("id", .vstr ("Method: " ++ mi.name)),
         ("return_type", .vstr (pyStrOpt mi.return_type)),
         ("parameters", .vlist (mi.parameters.map KG.paramValue)),
         ("decorators", .vlist (mi.decorators.map .vstr))]).hasNode ("Class: " ++ n) = true
  · have hc₂ : (if g₂.hasNode ("Method: " ++ mi.name) = true then g₂
        else g₂.addNodeRaw ("Method: " ++ mi.name)
          [("type", .vstr "method"), ("name", .vstr mi.name),
           ("id", .vstr ("Method: " ++ mi.name)),
           ("return_type", .vstr (pyStrOpt mi.return_type)),
           ("parameters", .vlist (mi.parameters.map KG.paramValue)),
           ("decorators", .vlist (mi.decorators.map .vstr))]).hasNode ("Class: " ++ n)
        = true := by rw [← hcls]; exact hc
    rw [if_pos hc, if_pos hc₂]
    exact hashFree_addEdge_nonhash _ _ _ (isHashId_class n) (isHashId_method mi.name) h'
  · have hc₂ : ¬ (if g₂.hasNode ("Method: " ++ mi.name) = true then g₂
        else g₂.addNodeRaw ("Method: " ++ mi.name)
          [("type", .vstr "method"), ("name", .vstr mi.name),
           ("id", .vstr ("Method: " ++ mi.name)),
           ("return_type", .vstr (pyStrOpt mi.return_type)),
           ("parameters", .vlist (mi.parameters.map KG.paramValue)),
           ("decorators", .vlist (mi.decorators.map .vstr))]).hasNode ("Class: " ++ n)
        = true := by rw [← hcls]; exact hc
    rw [if_neg hc, if_neg hc₂]
    exact h'

theorem hashFree_annotFold {f : String} (hf : isHashId f = false) (as : List String) :
    ∀ {g₁ g₂ : Graph}, hashFree g₁ = hashFree g₂ →
      hashFree (as.foldl (fun g a => KG.addAnnotationNode g f a) g₁) =
        hashFree (as.foldl (fun g a => KG.addAnnotationNode g f a) g₂) := by
  induction as with
  | nil => intro g₁ g₂ h; exact h
  | cons a t ih =>
    intro g₁ g₂ h
    exact ih (hashFree_addAnnotationNode f a hf h)

theorem hashFree_processMethod {g₁ g₂ : Graph} (f n : String) (mi : FunctionInfo)
    (hf : isHashId f = false) (h : hashFree g₁ = hashFree g₂) :
    hashFree (KG.processMethod g₁ f n mi) = hashFree (KG.processMethod g₂ f n mi) := by
  unfold KG.processMethod
  dsimp only
  exact hashFree_annotFold hf mi.decorators (hashFree_addMethodNode n mi h)

theorem hashFree_methodsFold {f n : String} (hf : isHashId f = false)
    (ms : List FunctionInfo) :
    ∀ {g₁ g₂ : Graph}, hashFree g₁ = hashFree g₂ →
      hashFree (ms.foldl (fun g m => KG.processMethod g f n m) g₁) =
        hashFree (ms.foldl (fun g m => KG.processMethod g f n m) g₂) := by
  induction ms with
  | nil => intro g₁ g₂ h; exact h
  | cons mi t ih =>
    intro g₁ g₂ h
    exact ih (hashFree_processMethod f n mi hf h)

theorem hashFree_processClass {g₁ g₂ : Graph} (f : String) (ci : ClassInfo)
    (hf : isHashId f = false) (h : hashFree g₁ = hashFree g₂) :
    hashFree (KG.processClass g₁ f ci) = hashFree (KG.processClass g₂ f ci) := by
  unfold KG.processClass
  dsimp only
  exact hashFree_methodsFold hf ci.methods
    (hashFree_annotFold hf ci.decorators (hashFree_addClassNode f ci.name hf h))

theorem hashFree_addCommentNode {g₁ g₂ : Graph} (e₁ e₂ : PyEnv) (f : String)
    (c : CommentInfo) (hf : isHashId f = false) (h : hashFree g₁ = hashFree g₂) :
    hashFree (KG.addCommentNode e₁ g₁ f c) = hashFree (KG.addCommentNode e₂ g₂ f c) := by
  unfold KG.addCommentNode
  dsimp only
  apply hashFree_addEdge_hash_target f _ _ _ _ hf
    (isHashId_comment_id _ _) (isHashId_comment_id _ _)
  rw [hashFree_guarded_hash _ _ (isHashId_comment_id _ _),
    hashFree_guarded_hash _ _ (isHashId_comment_id _ _)]
  exact h

theorem hashFree_addLogStatementNode {g₁ g₂ : Graph} (e₁ e₂ : PyEnv) (f m lv : String)
    (hf : isHashId f = false) (h : hashFree g₁ = hashFree g₂) :
    hashFree (KG.addLogStatementNode e₁ g₁ f m lv) =
      hashFree (KG.addLogStatementNode e₂ g₂ f m lv) := by
  unfold KG.addLogStatementNode
  dsimp only
  apply hashFree_addEdge_hash_target f _ _ _ _ hf (isHashId_log _) (isHashId_log _)
  rw [hashFree_guarded_hash _ _ (isHashId_log _), hashFree_guarded_hash _ _ (isHashId_log _)]
  exact h

theorem filter_map_fst_preserving (id : String) (attrs : List (String × Value))
    (l : List (String × List (String × Value))) :
    (l.map (fun p => if p.1 == id then (p.1, Graph.updateAttrs p.2 attrs) else p)).filter
        (fun p => !isHashId p.1)
      = (l.filter (fun p => !isHashId p.1)).map
          (fun p => if p.1 == id then (p.1, Graph.updateAttrs p.2 attrs) else p) := by
  induction l with
  | nil => rfl
  | cons p t ih =>
    have hfst : ((if p.1 == id then (p.1, Graph.updateAttrs p.2 attrs) else p)).1 = p.1 := by
      split <;> rfl
    rw [List.map_cons, List.filter_cons, List.filter_cons, hfst]
    by_cases hh : (!isHashId p.1) = true
    · rw [if_pos hh, if_pos hh, List.map_cons, ih]
    · rw [if_neg hh, if_neg hh, ih]

theorem hashFree_addPyFileNode {g₁ g₂ : Graph} (rel : String)
    (h : hashFree g₁ = hashFree g₂) :
    hashFree (KG.addPyFileNode g₁ rel) = hashFree (KG.addPyFileNode g₂ rel) := by
  unfold KG.addPyFileNode Graph.addNodeRaw
  have he := hasNode_eq_of_hashFree_eq (isHashId_file rel) h
  by_cases h1 : g₁.hasNode ("File: " ++ rel) = true
  · have h2 : g₂.hasNode ("File: " ++ rel) = true := by rw [← he]; exact h1
    rw [if_pos h1, if_pos h2]
    unfold hashFree
    dsimp only
    rw [filter_map_fst_preserving, filter_map_fst_preserving]
    unfold hashFree at h
    rw [h]
  · have h2 : ¬ g₂.hasNode ("File: " ++ rel) = true := by rw [← he]; exact h1
    rw [if_neg h1, if_neg h2]
    unfold hashFree
    dsimp only
    rw [List.filter_append, List.filter_append]
    unfold hashFree at h
    rw [h]

theorem hashFree_processFact {g₁ g₂ : Graph} (e₁ e₂ : PyEnv) (fileNode : String)
    (fa : PyFact) (hf : isHashId fileNode = false) (h : hashFree g₁ = hashFree g₂) :
    hashFree (processFact e₁ g₁ fileNode fa) = hashFree (processFact e₂ g₂ fileNode fa) := by
  cases fa with
  | importFact n => exact hashFree_addImportNode fileNode n hf h
  | classFact ci => exact hashFree_processClass fileNode ci hf h
  | commentFact c => exact hashFree_addCommentNode e₁ e₂ fileNode c hf h
  | logFact m lv => exact hashFree_addLogStatementNode e₁ e₂ fileNode m lv hf h

theorem hashFree_factsFold (e₁ e₂ : PyEnv) (fileNode : String)
    (hf : isHashId fileNode = false) (facts : List PyFact) :
    ∀ {g₁ g₂ : Graph}, hashFree g₁ = hashFree g₂ →
      hashFree (facts.foldl (fun g f => processFact e₁ g fileNode f) g₁) =
        hashFree (facts.foldl (fun g f => processFact e₂ g fileNode f) g₂) := by
  induction facts with
  | nil => intro g₁ g₂ h; exact h
  | cons fa t ih =>
    intro g₁ g₂ h
    exact ih (hashFree_processFact e₁ e₂ fileNode fa hf h)

theorem hashFree_processFile {g₁ g₂ : Graph} (e₁ e₂ : PyEnv) (rel : String)
    (facts : List PyFact) (h : hashFree g₁ = hashFree g₂) :
    hashFree (processFile e₁ g₁ rel facts) = hashFree (processFile e₂ g₂ rel facts) := by
  unfold processFile
  exact hashFree_factsFold e₁ e₂ _ (isHashId_file rel) facts
    (hashFree_addPyFileNode rel h)

/-- C1 amended: node ids other than Comment and Log ids are
deterministic keys derived from type and a discriminating string — over
any two runs (any salted string-hash seed, any clock) the assembled
graphs agree exactly on all nodes whose id is not hash-derived.  The
claim as stated fails: comment/log ids embed the per-process salted
`hash()` and the metadata embeds `datetime.now()`, so repeat runs need
not be byte-identical (see the counterexample). -/
theorem nonhash_nodes_run_independent (e₁ e₂ : PyEnv) (files : List (String × List PyFact)) :
    hashFree (buildGraph e₁ files) = hashFree (buildGraph e₂ files) := by
  unfold buildGraph
  suffices h : ∀ (fs : List (String × List PyFact)) {g₁ g₂ : Graph},
      hashFree g₁ = hashFree g₂ →
      hashFree (fs.foldl (fun g fl => processFile e₁ g fl.1 fl.2) g₁) =
        hashFree (fs.foldl (fun g fl => processFile e₂ g fl.1 fl.2) g₂) from
    h files rfl
  intro fs
  induction fs with
  | nil => intro g₁ g₂ h; exact h
  | cons fl t ih =>
    intro g₁ g₂ h
    exact ih (hashFree_processFile e₁ e₂ fl.1 fl.2 h)

/-- C1 as stated is false on the code: with the same input, a run whose
salted string hash differs (Python randomizes `hash(str)` per process
unless `PYTHONHASHSEED` is fixed) produces a different comment node id,
and a run at a different time produces a different
`analysis_timestamp`, so neither the graph JSON nor anything derived
from it (such as the compressed output) is byte-identical across
runs. -/
theorem pipeline_not_run_deterministic :
    (savedOutput ⟨fun _ => 0, "2025-01-01T00:00:00"⟩
        [("a.py", [PyFact.commentFact ⟨"hi", 1, .inline, none, []⟩])] ≠
      savedOutput ⟨fun _ => 1, "2025-01-01T00:00:00"⟩
        [("a.py", [PyFact.commentFact ⟨"hi", 1, .inline, none, []⟩])]) ∧
    (savedOutput ⟨fun _ => 0, "2025-01-01T00:00:00"⟩ [("a.py", [])] ≠
      savedOutput ⟨fun _ => 0, "2025-01-02T00:00:00"⟩ [("a.py", [])]) := by
  constructor
  · intro h
    have h1 := congrArg (fun r : Graph × String => r.1.nodes.map Prod.fst) h
    exact absurd h1 (by decide)
  · intro h
    have h2 := congrArg (fun r : Graph × String => r.2) h
    exact absurd h2 (by decide)
